import Mathlib

/-!
Verification development for the recursive composite action scanner
(`src/GitHub/recursive_composite_scanner.py`).

Strings are embedded as `List Char` (`Str`), action references as triples
`(owner, name, version)`.  YAML documents are embedded as a small tagged
value type `Yaml`.  The external world (git clone / checkout and the files
of a cloned repository) is embedded as a finite association list `Env`
mapping a reference to either a clone failure message or the repository
data the scanner reads (the optional top level action file with its parse
outcome, and the optional Dockerfile's lines).  The arbitrary order in
which Python's `set.pop` removes worklist elements is embedded as an
oracle `Nat → Nat` choosing an index at each drain-loop iteration.
Raised-and-uncaught Python exceptions are embedded as `Except.error`.
-/

abbrev Str := List Char

abbrev Ref := Str × Str × Str

/-- Boolean test that `pre` is a prefix of `s` (Python `str.startswith`). -/
def strStarts : Str → Str → Bool
  | _, [] => true
  | [], _ :: _ => false
  | c :: s, d :: p => c == d && strStarts s p

/-- Boolean substring test (Python `needle in hay` on strings). -/
def hasSubstr : Str → Str → Bool
  | [], needle => needle.isEmpty
  | c :: t, needle => strStarts (c :: t) needle || hasSubstr t needle

/-- Lookup in an association list (Python `dict.get` returning `None` when absent). -/
def alookup {κ α : Type} [DecidableEq κ] : List (κ × α) → κ → Option α
  | [], _ => none
  | p :: rest, k => if p.1 = k then some p.2 else alookup rest k

/-- Python `dict.setdefault(k, d)`: insert `k ↦ d` at the end when `k` is absent. -/
def alistSetdefault {α : Type} (m : List (Ref × α)) (k : Ref) (d : α) : List (Ref × α) :=
  match alookup m k with
  | some _ => m
  | none => m ++ [(k, d)]

/-- Update the value stored at key `k` (Python mutation of `dict[k]`). -/
def alistUpdate {α : Type} (m : List (Ref × α)) (k : Ref) (f : α → α) : List (Ref × α) :=
  m.map (fun p => if p.1 = k then (p.1, f p.2) else p)

/-- Python `set.add`: append when not yet present (list embeds the set). -/
def insertNew (l : List Ref) (x : Ref) : List Ref := if x ∈ l then l else l ++ [x]

/-- Default reference used only as the unreachable fallback of indexing. -/
def defRef : Ref := ([], [], [])

/-- Remove-and-return the element at index `i` (one arbitrary `set.pop`). -/
def popAt (l : List Ref) (i : Nat) : Ref × List Ref :=
  (l.getD i defRef, l.take i ++ l.drop (i + 1))

/-- Python whitespace recognised by `str.strip`. -/
def isPyWs (c : Char) : Bool :=
  c == ' ' || c == '\t' || c == '\n' || c == '\r' || c == Char.ofNat 11 || c == Char.ofNat 12

/-- Python `str.strip()`. -/
def pyStrip (s : Str) : Str := ((s.dropWhile isPyWs).reverse.dropWhile isPyWs).reverse

/-- Loaded YAML values: strings, numbers, booleans, null, mappings, sequences. -/
inductive Yaml : Type where
  | str : Str → Yaml
  | int : Int → Yaml
  | bool : Bool → Yaml
  | null : Yaml
  | map : List (Str × Yaml) → Yaml
  | seq : List Yaml → Yaml

def usesK : Str := ("uses").data
def jobsK : Str := ("jobs").data
def stepsK : Str := ("steps").data
def runsK : Str := ("runs").data
def usingK : Str := ("using").data
def imageK : Str := ("image").data
def dockerS : Str := ("docker").data
def compositeS : Str := ("composite").data
def dockerPrefS : Str := ("docker://").data
def dockerfileS : Str := ("Dockerfile").data
def shaS : Str := ("@sha256:").data
def fromS : Str := ("FROM ").data
def mainOwnerS : Str := ("__MAIN_REPO__").data
def mainLabelS : Str := ("Main Repository").data

/-- Sentinel graph key for the root repository: `("__MAIN_REPO__", "", "")`. -/
def MAIN_KEY : Ref := (mainOwnerS, [], [])

/-- ASCII single quote, written by code point to keep it out of literals. -/
def sqC : Char := Char.ofNat 39

def parseErrMsg (s : Str) : Str := ("Cannot parse uses string: ").data ++ s

/-- Message for the `TypeError` raised by `re.match` on a non-string value. -/
def typeErrMsg : Str := ("TypeError: expected string or bytes-like object").data

/-- Message for the `AttributeError` raised by `step.get` on a non-mapping step. -/
def attrErrMsg : Str := ("AttributeError: object has no attribute get").data

def parseActionMsg (name e : Str) : Str :=
  ("Could not parse ").data ++ name ++ (": ").data ++ e

def unpinnedImgMsg (image : Str) : Str := ("Unpinned Docker image => ").data ++ image

def unpinnedFromMsg (r : Str) : Str :=
  ("Unpinned Docker FROM => ").data ++ [sqC] ++ r ++ [sqC]

def noDockerfileMsg : Str :=
  ("runs.image=").data ++ [sqC] ++ ("Dockerfile").data ++ [sqC] ++
    (" but no Dockerfile found in root.").data

/-- Warning text printed when a discovered reference cannot be cloned / checked out
(the f-string at line 304 of the source). -/
def cloneWarnMsg (k : Ref) (e : Str) : Str :=
  ("WARNING: Unable to clone/check out ").data ++ k.1 ++ '/' :: k.2.1 ++ '@' :: k.2.2 ++
    (": ").data ++ e

/-- Generic clone failure used for references absent from the environment. -/
def cloneMissingMsg : Str := ("git clone failed").data

/-- Python truthiness of a loaded YAML value. -/
def pyTruthy : Yaml → Bool
  | .str s => !s.isEmpty
  | .int n => n != 0
  | .bool b => b
  | .null => false
  | .map l => !l.isEmpty
  | .seq l => !l.isEmpty

/-- Python membership `needle in v` for a string `needle`: substring on strings,
key membership on mappings, element equality on sequences, `TypeError` otherwise. -/
def pyContains (needle : Str) : Yaml → Except Str Bool
  | .str s => .ok (hasSubstr s needle)
  | .map l => .ok (l.any (fun p => p.1 == needle))
  | .seq l => .ok (l.any (fun y => match y with | .str t => t == needle | _ => false))
  | _ => .error (("TypeError: argument is not iterable").data)

def slashS : Str := ('/') :: []
def atS : Str := ('@') :: []

/-- `is_external_action` (line 92): the value contains both a slash and an at sign.
Python `and` short-circuits, so the second membership test runs only when the
first succeeded and returned `True`. -/
def is_external_action (u : Yaml) : Except Str Bool :=
  match pyContains slashS u with
  | .error e => .error e
  | .ok false => .ok false
  | .ok true => pyContains atS u

/-- Group 3 of `re.match(r"^([^/]+)/([^@]+)@(.+)$", s)`: in Python's default
mode `.` never matches a newline while `$` also matches just before one
trailing newline, so the group is the remainder with at most one trailing
newline removed, and must be non-empty and newline-free. -/
def matchVersionGroup (v : Str) : Option Str :=
  let core := if v.getLast? = some '\n' then v.dropLast else v
  if core = [] ∨ '\n' ∈ core then none else some core

/-- `parse_uses_value` (line 97): `re.match(r"^([^/]+)/([^@]+)@(.+)$", s)`.
Since `[^/]+` cannot cross a slash and `[^@]+` cannot cross an at sign,
group 1 necessarily ends at the first slash of `s` and group 2 at the first
at sign after it; group 3 is `matchVersionGroup` of the remainder.  A failed
match raises `ValueError` (the `.error` case). -/
def parse_uses_value (s : Str) : Except Str Ref :=
  let o := s.takeWhile (fun c => !(c == '/'))
  match s.dropWhile (fun c => !(c == '/')) with
  | [] => .error (parseErrMsg s)
  | _ :: r2 =>
    if o = [] then .error (parseErrMsg s) else
    let n := r2.takeWhile (fun c => !(c == '@'))
    match r2.dropWhile (fun c => !(c == '@')) with
    | [] => .error (parseErrMsg s)
    | _ :: v =>
      if n = [] then .error (parseErrMsg s) else
      match matchVersionGroup v with
      | some core => .ok (o, n, core)
      | none => .error (parseErrMsg s)

/-- Shared handling of one mapping step's `uses` field (lines 138-143 and
215-221 of the source are textually identical): a missing or falsy value is
skipped; `is_external_action` may raise `TypeError`; an external value is
parsed, `re.match` raising `TypeError` on a non-string, and a `ValueError`
from a failed parse being caught and ignored. -/
def scanUses (acc : List Ref) (m : List (Str × Yaml)) : Except Str (List Ref) :=
  match alookup m usesK with
  | none => .ok acc
  | some u =>
    if pyTruthy u then
      match is_external_action u with
      | .error e => .error e
      | .ok false => .ok acc
      | .ok true =>
        match u with
        | .str s =>
          match parse_uses_value s with
          | .ok r => .ok (insertNew acc r)
          | .error _ => .ok acc
        | _ => .error typeErrMsg
    else .ok acc

/-- Walk of a workflow job's `steps` sequence (lines 135-143): steps that are
not mappings are skipped. -/
def workflowSteps (acc : List Ref) : List Yaml → Except Str (List Ref)
  | [] => .ok acc
  | s :: rest =>
    match s with
    | .map m =>
      match scanUses acc m with
      | .error e => .error e
      | .ok acc2 => workflowSteps acc2 rest
    | _ => workflowSteps acc rest

/-- Walk of the `jobs` mapping (lines 129-143): non-mapping jobs and
non-sequence `steps` values are skipped. -/
def workflowJobs (acc : List Ref) : List (Str × Yaml) → Except Str (List Ref)
  | [] => .ok acc
  | (_, jd) :: rest =>
    match jd with
    | .map jm =>
      match (alookup jm stepsK).getD (Yaml.seq []) with
      | .seq steps =>
        match workflowSteps acc steps with
        | .error e => .error e
        | .ok acc2 => workflowJobs acc2 rest
      | _ => workflowJobs acc rest
    | _ => workflowJobs acc rest

/-- One workflow document (lines 117-127): parse failures and non-mapping
documents are skipped, as is a non-mapping `jobs` value. -/
def workflowDoc (acc : List Ref) (d : Except Str Yaml) : Except Str (List Ref) :=
  match d with
  | .error _ => .ok acc
  | .ok (.map dm) =>
    match (alookup dm jobsK).getD (Yaml.map []) with
    | .map jm => workflowJobs acc jm
    | _ => .ok acc
  | .ok _ => .ok acc

def workflowDocs (acc : List Ref) : List (Except Str Yaml) → Except Str (List Ref)
  | [] => .ok acc
  | d :: rest =>
    match workflowDoc acc d with
    | .error e => .error e
    | .ok acc2 => workflowDocs acc2 rest

/-- `get_actions_from_workflows` (line 113): the workflow documents are given
as their load outcomes (a read or parse failure is the `.error` case, which
the source catches and skips). -/
def get_actions_from_workflows (docs : List (Except Str Yaml)) : Except Str (List Ref) :=
  workflowDocs [] docs

/-- `is_unpinned_docker_image` (line 147). -/
def is_unpinned_docker_image (image : Str) : Bool :=
  if strStarts image dockerPrefS then
    !(hasSubstr (image.drop dockerPrefS.length) shaS)
  else false

/-- One line of `analyze_dockerfile`'s loop (lines 160-164).  The source
iterates the file's raw lines; the trailing newline of each is immaterial
because `strip` removes it. -/
def dockerfileLineWarn (line : Str) : Option Str :=
  if strStarts ((pyStrip line).map Char.toUpper) fromS then
    (let r := pyStrip ((pyStrip line).drop 5)
     if hasSubstr r shaS then none else some (unpinnedFromMsg r))
  else none

/-- `analyze_dockerfile` (line 155), on the readable lines of the file. -/
def analyze_dockerfile (lines : List Str) : List Str := lines.filterMap dockerfileLineWarn

/-- Walk of a composite action's `runs.steps` (lines 214-221).  Unlike
`workflowSteps` there is no mapping guard on the step: `step.get("uses")`
raises `AttributeError` when the step is not a mapping. -/
def compositeSteps (acc : List Ref) : List Yaml → Except Str (List Ref)
  | [] => .ok acc
  | s :: rest =>
    match s with
    | .map m =>
      match scanUses acc m with
      | .error e => .error e
      | .ok acc2 => compositeSteps acc2 rest
    | _ => .error attrErrMsg

/-- Warnings for the Dockerfile build branch (lines 205-209): analyze the
sibling Dockerfile when present, else warn that it is missing. -/
def dfWarn : Option (List Str) → List Str
  | some lines => analyze_dockerfile lines
  | none => [noDockerfileMsg]

/-- Warnings for a string `image` value of a container action (lines 199-209). -/
def imageWarn (image : Str) (df : Option (List Str)) : List Str :=
  if strStarts image dockerPrefS then
    (if is_unpinned_docker_image image then [unpinnedImgMsg image] else [])
  else if image = dockerfileS then dfWarn df
  else []

/-- Docker branch of the inspector (lines 197-210): a missing or non-string
`image` produces nothing. -/
def inspectorImage (rm : List (Str × Yaml)) (df : Option (List Str)) : List Str :=
  match alookup rm imageK with
  | some (Yaml.str image) => imageWarn image df
  | _ => []

/-- Result of walking a composite steps sequence: an uncaught exception
propagates, otherwise the discovered children with no warnings. -/
def compositeResult (steps : List Yaml) : Except Str (List Ref × List Str) :=
  match compositeSteps [] steps with
  | .error e => .error e
  | .ok subs => .ok (subs, [])

/-- Composite branch of the inspector (lines 212-221): a non-sequence
`runs.steps` is skipped. -/
def inspectorComposite (rm : List (Str × Yaml)) : Except Str (List Ref × List Str) :=
  match (alookup rm stepsK).getD (Yaml.seq []) with
  | Yaml.seq steps => compositeResult steps
  | _ => .ok ([], [])

/-- Dispatch on the string `runs.using` discriminator (lines 197-222). -/
def inspectorUsing (u : Str) (rm : List (Str × Yaml)) (df : Option (List Str)) :
    Except Str (List Ref × List Str) :=
  if u = dockerS then .ok ([], inspectorImage rm df)
  else if u = compositeS then inspectorComposite rm
  else .ok ([], [])

/-- Inspect the `runs` mapping (lines 195-222): a missing or non-string
`using` value matches neither discriminator. -/
def inspectorRuns (rm : List (Str × Yaml)) (df : Option (List Str)) :
    Except Str (List Ref × List Str) :=
  match alookup rm usingK with
  | some (Yaml.str u) => inspectorUsing u rm df
  | _ => .ok ([], [])

/-- Inspect a loaded mapping document (lines 191-222): a missing or
non-mapping `runs` value yields nothing. -/
def inspectorDoc (dm : List (Str × Yaml)) (df : Option (List Str)) :
    Except Str (List Ref × List Str) :=
  match (alookup dm runsK).getD (Yaml.map []) with
  | Yaml.map rm => inspectorRuns rm df
  | _ => .ok ([], [])

/-- `get_actions_and_docker_warnings_from_action_file` (line 178).  The file
is given by its name (`action.yml` or `action.yaml`), its load outcome, and
the optional readable lines of a sibling `Dockerfile`; a load failure yields
one diagnostic warning, a non-mapping document nothing. -/
def get_actions_and_docker_warnings_from_action_file (name : Str) :
    Except Str Yaml → Option (List Str) → Except Str (List Ref × List Str)
  | .error e, _ => .ok ([], [parseActionMsg name e])
  | .ok (Yaml.map dm), df => inspectorDoc dm df
  | .ok (Yaml.str _), _ => .ok ([], [])
  | .ok (Yaml.int _), _ => .ok ([], [])
  | .ok (Yaml.bool _), _ => .ok ([], [])
  | .ok Yaml.null, _ => .ok ([], [])
  | .ok (Yaml.seq _), _ => .ok ([], [])

/-- Top level action file of an acquired working copy: its conventional name
and its load outcome. -/
structure ActionFile where
  name : Str
  content : Except Str Yaml

/-- Repository data the scanner reads from an acquired working copy:
`find_top_level_action_file` (line 170) and the sibling `Dockerfile`. -/
structure RepoData where
  actionFile : Option ActionFile
  dockerfile : Option (List Str)

/-- External world: each reference maps to a clone failure or its repository
data; references not listed fail to clone.  The list is finite, which is the
finite universe of distinct references of a run. -/
abbrev Env := List (Ref × Except Str RepoData)

/-- `clone_repo` (line 229) as the external collaborator: an `.error` is the
exception raised on a failed clone / fetch / checkout. -/
def envClone (env : Env) (x : Ref) : Except Str RepoData :=
  (alookup env x).getD (.error cloneMissingMsg)

/-- Outcome of processing one popped reference (lines 300-316). -/
inductive ProcOut : Type where
  | cloneFail : Str → ProcOut
  | leaf : ProcOut
  | raised : Str → ProcOut
  | inspected : List Ref → List Str → ProcOut

/-- Inspection of a found action file (line 316): an uncaught exception of
the inspector propagates out of the loop body. -/
def processAF (af : ActionFile) (df : Option (List Str)) : ProcOut :=
  match get_actions_and_docker_warnings_from_action_file af.name af.content df with
  | .error e => .raised e
  | .ok (subs, ws) => .inspected subs ws

/-- Lines 311-316: locate the action file; absence means a leaf. -/
def processRepo (repo : RepoData) : ProcOut :=
  match repo.actionFile with
  | none => .leaf
  | some af => processAF af repo.dockerfile

/-- Body of one drain-loop iteration after the visited bookkeeping: clone
(line 302), find the action file (line 311), inspect it (line 316). -/
def processRef (env : Env) (x : Ref) : ProcOut :=
  match envClone env x with
  | .error m => .cloneFail m
  | .ok repo => processRepo repo

/-- Children contributed by a reference (empty unless inspection succeeded). -/
def kidsOf (env : Env) (x : Ref) : List Ref :=
  match processRef env x with
  | .inspected subs _ => subs
  | _ => []

/-- Warnings recorded in the warnings map for a reference (empty unless
inspection succeeded: a clone failure only prints, line 304-308). -/
def warnsOf (env : Env) (x : Ref) : List Str :=
  match processRef env x with
  | .inspected _ ws => ws
  | _ => []

/-- The child set a reference ends up with in the dependency graph. -/
def childListOf (env : Env) (x : Ref) : List Ref := (kidsOf env x).foldl insertNew []

/-- State of `recursively_discover_actions` (lines 280-289), with two ghost
fields: `acquired` logs each invocation of `clone_repo`, `log` the console
warnings printed inside the loop. -/
structure ScanState where
  toVisit : List Ref
  visited : List Ref
  allDisc : List Ref
  graph : List (Ref × List Ref)
  warns : List (Ref × List Str)
  acquired : List Ref
  log : List Str
deriving DecidableEq

/-- Recording one child `sa` of `x` (lines 320-324): add the edge, then
enqueue `sa` when it was never discovered before. -/
def addChild (x : Ref) (st : ScanState) (sa : Ref) : ScanState :=
  { st with
    graph := alistUpdate st.graph x (fun cs => insertNew cs sa),
    toVisit := if sa ∈ st.allDisc then st.toVisit else st.toVisit ++ [sa],
    allDisc := insertNew st.allDisc sa }

/-- Bookkeeping when an unvisited reference is popped (lines 295-298): mark
visited, create its empty graph and warnings entries, log the acquisition
attempt in the `acquired` ghost field. -/
def stVisitMark (x : Ref) (tv : List Ref) (st : ScanState) : ScanState :=
  { toVisit := tv, visited := st.visited ++ [x], allDisc := st.allDisc,
    graph := alistSetdefault st.graph x [],
    warns := alistSetdefault st.warns x [],
    acquired := st.acquired ++ [x], log := st.log }

/-- One iteration's work on an unvisited popped reference (lines 295-324):
a clone failure prints a warning and continues, a missing action file
continues, an uncaught inspector exception escapes, and an inspection
records warnings and children. -/
def scanBody (env : Env) (x : Ref) (tv : List Ref) (st : ScanState) : Except Str ScanState :=
  match processRef env x with
  | .cloneFail m => .ok { stVisitMark x tv st with log := st.log ++ [cloneWarnMsg x m] }
  | .leaf => .ok (stVisitMark x tv st)
  | .raised e => .error e
  | .inspected subs ws =>
    .ok (subs.foldl (addChild x)
      { stVisitMark x tv st with
        warns := alistUpdate (stVisitMark x tv st).warns x (fun l => l ++ ws) })

/-- The drain loop (lines 291-325).  `fuel` bounds the number of iterations;
`none` means the fuel ran out (the termination theorem shows a computable
fuel always suffices); `some (.error e)` is an uncaught exception escaping
the loop body.  The `oracle` picks which element `set.pop` removes. -/
def scanLoop (env : Env) (oracle : Nat → Nat) :
    Nat → Nat → ScanState → Option (Except Str ScanState)
  | 0, _, st => if st.toVisit = [] then some (.ok st) else none
  | fuel + 1, n, st =>
    if st.toVisit = [] then some (.ok st)
    else if (popAt st.toVisit (oracle n % st.toVisit.length)).1 ∈ st.visited then
      scanLoop env oracle fuel (n + 1)
        { st with toVisit := (popAt st.toVisit (oracle n % st.toVisit.length)).2 }
    else
      match scanBody env (popAt st.toVisit (oracle n % st.toVisit.length)).1
          (popAt st.toVisit (oracle n % st.toVisit.length)).2 st with
      | .error e => some (.error e)
      | .ok st2 => scanLoop env oracle fuel (n + 1) st2

/-- Contribution of the not yet visited environment entries to the loop's
potential. -/
def weightAux (env : Env) (visited : List Ref) : List (Ref × Except Str RepoData) → Nat
  | [] => 0
  | p :: rest =>
    (if p.1 ∈ visited then 0 else (kidsOf env p.1).length) + weightAux env visited rest

/-- Loop potential: strictly decreases at every iteration. -/
def potential (env : Env) (st : ScanState) : Nat :=
  st.toVisit.length + weightAux env st.visited env

/-- Fuel that always suffices for a full run. -/
def initFuel (env : Env) (seed : List Ref) : Nat := seed.length + weightAux env [] env

/-- Initial traversal state (lines 280-289). -/
def initState (seed : List Ref) : ScanState :=
  { toVisit := seed, visited := [], allDisc := seed,
    graph := [(MAIN_KEY, seed)], warns := [(MAIN_KEY, [])], acquired := [], log := [] }

/-- `recursively_discover_actions` (line 254): seed from the root workflows,
then drain.  The root clone itself is the precondition of being handed the
workflow documents (its failure is fatal before the traversal starts). -/
def recursively_discover_actions (workflows : List (Except Str Yaml)) (env : Env)
    (oracle : Nat → Nat) : Option (Except Str ScanState) :=
  match get_actions_from_workflows workflows with
  | .error e => some (.error e)
  | .ok seed => scanLoop env oracle (initFuel env seed) 0 (initState seed)

def emptyState : ScanState := initState []

/-- Final state of a completed run (`emptyState` on a failed or fuel-out run;
used only to phrase closed statements about concrete completed runs). -/
def runStateOf (res : Option (Except Str ScanState)) : ScanState :=
  match res with
  | some (.ok st) => st
  | _ => emptyState

/-- `key_to_str` (line 333): the format direction of the reference codec. -/
def key_to_str (k : Ref) : Str :=
  if k.1 = mainOwnerS then mainLabelS
  else k.1 ++ '/' :: k.2.1 ++ '@' :: k.2.2

/-- A real (non-sentinel) reference: all three components non-empty. -/
def refOk (k : Ref) : Prop := k.1 ≠ [] ∧ k.2.1 ≠ [] ∧ k.2.2 ≠ []

/-- References discoverable from a seed through the environment. -/
inductive Reaches (env : Env) (seed : List Ref) : Ref → Prop where
  | base : ∀ x, x ∈ seed → Reaches env seed x
  | step : ∀ x y, Reaches env seed x → y ∈ kidsOf env x → Reaches env seed y

/-- What the dependency graph maps a key to, as a function of the visited set. -/
def graphSpec (env : Env) (seed visited : List Ref) (k : Ref) : Option (List Ref) :=
  if k = MAIN_KEY then some seed
  else if k ∈ visited then some (childListOf env k) else none

/-- What the warnings map stores at a key, as a function of the visited set. -/
def warnsSpec (env : Env) (visited : List Ref) (k : Ref) : Option (List Str) :=
  if k = MAIN_KEY then some []
  else if k ∈ visited then some (warnsOf env k) else none

/-- Invariant of the drain loop, established by the initial state and
preserved by every iteration. -/
structure LoopInv (env : Env) (seed : List Ref) (st : ScanState) : Prop where
  ndTv : st.toVisit.Nodup
  ndVis : st.visited.Nodup
  ndAll : st.allDisc.Nodup
  tvAll : ∀ x, x ∈ st.toVisit → x ∈ st.allDisc
  visAll : ∀ x, x ∈ st.visited → x ∈ st.allDisc
  allSplit : ∀ x, x ∈ st.allDisc → x ∈ st.visited ∨ x ∈ st.toVisit
  tvVis : ∀ x, x ∈ st.toVisit → x ∉ st.visited
  seedAll : ∀ x, x ∈ seed → x ∈ st.allDisc
  allReach : ∀ x, x ∈ st.allDisc → Reaches env seed x
  visKids : ∀ x, x ∈ st.visited → ∀ y, y ∈ kidsOf env x → y ∈ st.allDisc
  allOk : ∀ x, x ∈ st.allDisc → refOk x
  graphChar : ∀ k, alookup st.graph k = graphSpec env seed st.visited k
  warnsChar : ∀ k, alookup st.warns k = warnsSpec env st.visited k
  acqVis : st.acquired = st.visited
  logClone : ∀ x m, x ∈ st.visited → envClone env x = .error m → cloneWarnMsg x m ∈ st.log

/-- Shape of a reference string exactly as claim C4 words it: `owner/name@version`,
owner non-empty and free of a slash, name non-empty and free of an at sign,
version a non-empty remainder. -/
def C4Shape (s : Str) : Prop :=
  ∃ o n v : Str, s = o ++ '/' :: (n ++ '@' :: v) ∧
    o ≠ [] ∧ '/' ∉ o ∧ n ≠ [] ∧ '@' ∉ n ∧ v ≠ []

/-- The C4 shape further restricted to a newline-free version component. -/
def C4ShapeStrict (s : Str) : Prop :=
  ∃ o n v : Str, s = o ++ '/' :: (n ++ '@' :: v) ∧
    o ≠ [] ∧ '/' ∉ o ∧ n ≠ [] ∧ '@' ∉ n ∧ v ≠ [] ∧ '\n' ∉ v

def hexChar (c : Char) : Bool :=
  ('0' ≤ c && c ≤ '9') || ('a' ≤ c && c ≤ 'f') || ('A' ≤ c && c ≤ 'F')

/-- Modelled from the spec: a reference carries a content-digest suffix when it
ends in `@sha256:` followed by exactly 64 hexadecimal characters. -/
def ClaimDigestPinned (r : Str) : Prop :=
  ∃ t h : Str, r = t ++ shaS ++ h ∧ h.length = 64 ∧ ∀ c ∈ h, hexChar c = true

/-- A Dockerfile line the source recognises as a base-image directive. -/
def isFromLineB (line : Str) : Bool :=
  strStarts ((pyStrip line).map Char.toUpper) fromS

/-- The image argument the source extracts from a base-image line. -/
def dockerfileFromArg (line : Str) : Str := pyStrip ((pyStrip line).drop 5)

/-- A base-image line whose argument lacks the `@sha256:` substring. -/
def offendingLineB (line : Str) : Bool :=
  isFromLineB line && !(hasSubstr (dockerfileFromArg line) shaS)

/-- Literal helper for fixtures. -/
def strL (s : String) : Str := s.data

def actionYmlS : Str := strL ("action.yml")

def refA : Ref := (strL ("o1"), strL ("aa"), strL ("v1"))

def refB : Ref := (strL ("o2"), strL ("bb"), strL ("v1"))

def stepUses (u : String) : Yaml := Yaml.map [(usesK, Yaml.str (strL u))]

def compositeDoc (u : String) : Yaml :=
  Yaml.map [(runsK, Yaml.map [(usingK, Yaml.str compositeS), (stepsK, Yaml.seq [stepUses u])])]

def dockerDoc (img : String) : Yaml :=
  Yaml.map [(runsK, Yaml.map [(usingK, Yaml.str dockerS), (imageK, Yaml.str (strL img))])]

def workflowOf (us : List String) : Yaml :=
  Yaml.map [(jobsK, Yaml.map [(strL ("build"), Yaml.map [(stepsK, Yaml.seq (us.map stepUses))])])]

/-- Root workflows of the cycle fixture: the root references action A. -/
def wfsC : List (Except Str Yaml) := [Except.ok (workflowOf [("o1/aa@v1")])]

/-- Cycle fixture: A's composite steps reference B and B's reference A. -/
def envC : Env :=
  [(refA, .ok ⟨some ⟨actionYmlS, .ok (compositeDoc ("o2/bb@v1"))⟩, none⟩),
   (refB, .ok ⟨some ⟨actionYmlS, .ok (compositeDoc ("o1/aa@v1"))⟩, none⟩)]

def orc0 : Nat → Nat := fun _ => 0

def orc1 : Nat → Nat := fun _ => 1

/-- Clone-failure fixture: the single seeded reference fails to clone. -/
def envF : Env := [(refA, .error (strL ("boom")))]

/-- Two-seed fixture used to compare two pop orders. -/
def wfsD : List (Except Str Yaml) :=
  [Except.ok (workflowOf [("o1/aa@v1"), ("o2/bb@v1")])]

def envD : Env :=
  [(refA, .ok ⟨none, none⟩),
   (refB, .ok ⟨some ⟨actionYmlS, .ok (compositeDoc ("o1/aa@v1"))⟩, none⟩)]

/-- Composite action whose steps sequence holds a plain string, not a mapping. -/
def c3doc : Yaml :=
  Yaml.map [(runsK, Yaml.map [(usingK, Yaml.str compositeS),
    (stepsK, Yaml.seq [Yaml.str (strL ("echo hi"))])])]

/-- Workflow whose job steps hold the same plain string step. -/
def c3wf : Yaml :=
  Yaml.map [(jobsK, Yaml.map [(strL ("j"), Yaml.map [(stepsK,
    Yaml.seq [Yaml.str (strL ("echo hi"))])])])]

def ce4s : Str := strL ("a/b@c\n")

def ce6img : Str := strL ("docker://a@sha256:zz")

def ce6doc : Yaml := dockerDoc ("docker://a@sha256:zz")

def ce7line : Str := strL ("FROM img@sha256:zz")

def ubuntuLine : Str := strL ("FROM ubuntu:20.04")

/-! Basic helper lemmas. -/

theorem strStarts_append (a b : Str) : strStarts (a ++ b) a = true := by
  induction a with
  | nil => cases b <;> simp [strStarts]
  | cons c t ih => simp [strStarts, ih]

theorem hasSubstr_of_parts (pre needle suf : Str) :
    hasSubstr (pre ++ needle ++ suf) needle = true := by
  induction pre with
  | nil =>
    cases hn : needle ++ suf with
    | nil =>
      have h1 : needle = [] := by
        cases needle with
        | nil => rfl
        | cons c t => simp at hn
      have h2 : suf = [] := by
        rw [h1] at hn
        simpa using hn
      simp [h1, h2, hasSubstr]
    | cons c t =>
      simp only [List.nil_append, hn, hasSubstr]
      have hs := strStarts_append needle suf
      rw [hn] at hs
      simp [hs]
  | cons c t ih =>
    simp only [List.cons_append, hasSubstr]
    simp only [List.append_assoc] at ih
    simp [ih]

theorem mem_insertNew (l : List Ref) (x y : Ref) :
    y ∈ insertNew l x ↔ y ∈ l ∨ y = x := by
  by_cases h : x ∈ l
  · simp only [insertNew, if_pos h]
    constructor
    · exact fun hy => Or.inl hy
    · rintro (hy | rfl) <;> [exact hy; exact h]
  · simp [insertNew, if_neg h]

theorem nodup_insertNew (l : List Ref) (x : Ref) (h : l.Nodup) :
    (insertNew l x).Nodup := by
  by_cases hx : x ∈ l
  · simpa [insertNew, if_pos hx]
  · simpa [insertNew, if_neg hx, List.nodup_append] using ⟨h, hx⟩

theorem nodup_concat_of (l : List Ref) (x : Ref) (h : l.Nodup) (hx : x ∉ l) :
    (l ++ [x]).Nodup := by
  simpa [List.nodup_append] using ⟨h, hx⟩

theorem alookup_some_mem {κ α : Type} [DecidableEq κ] :
    ∀ (m : List (κ × α)) (k : κ) (v : α), alookup m k = some v → (k, v) ∈ m := by
  intro m
  induction m with
  | nil => intro k v h; simp [alookup] at h
  | cons p rest ih =>
    intro k v h
    by_cases hk : p.1 = k
    · simp only [alookup, if_pos hk] at h
      cases p with
      | mk a b =>
        simp only at hk
        cases h
        subst hk
        exact List.mem_cons_self _ _
    · simp only [alookup, if_neg hk] at h
      exact List.mem_cons_of_mem _ (ih k v h)

theorem alookup_setdefault_self {α : Type} (m : List (Ref × α)) (k : Ref) (d : α) :
    alookup (alistSetdefault m k d) k = some ((alookup m k).getD d) := by
  unfold alistSetdefault
  cases h : alookup m k with
  | some v => simp [h]
  | none =>
    simp only [Option.getD_none]
    induction m with
    | nil => simp [alookup]
    | cons p rest ih =>
      by_cases hk : p.1 = k
      · simp [alookup, if_pos hk] at h
      · simp only [alookup, if_neg hk] at h ⊢
        exact ih h

theorem alookup_setdefault_ne {α : Type} (m : List (Ref × α)) (k k2 : Ref) (d : α)
    (h : k2 ≠ k) : alookup (alistSetdefault m k d) k2 = alookup m k2 := by
  unfold alistSetdefault
  cases alookup m k with
  | some v => rfl
  | none =>
    induction m with
    | nil =>
      have : k ≠ k2 := fun hh => h hh.symm
      simp [alookup, this]
    | cons p rest ih =>
      by_cases hk : p.1 = k2
      · simp [alookup, if_pos hk]
      · simp only [List.cons_append, alookup, if_neg hk]
        exact ih

theorem alookup_update {α : Type} (m : List (Ref × α)) (k k2 : Ref) (f : α → α) :
    alookup (alistUpdate m k f) k2 =
      if k2 = k then (alookup m k2).map f else alookup m k2 := by
  induction m with
  | nil => by_cases h : k2 = k <;> simp [alookup, alistUpdate, h]
  | cons p rest ih =>
    simp only [alistUpdate, List.map_cons]
    by_cases hpk : p.1 = k
    · by_cases hk2 : k2 = k
      · subst hk2
        have hp2 : p.1 = k2 := hpk
        simp [alookup, alistUpdate, hpk, hp2, ih]
      · have hp2 : p.1 ≠ k2 := fun hh => hk2 (hh.symm.trans hpk)
        simp only [alookup, if_pos hpk, if_neg hp2, if_neg hk2]
        simp only [alistUpdate] at ih
        simp [ih, hk2]
    · by_cases hk2 : k2 = k
      · subst hk2
        have hp2 : p.1 ≠ k2 := hpk
        simp only [alookup, if_neg hpk, if_neg hp2]
        simp only [alistUpdate] at ih
        simp [ih]
      · simp only [alookup, if_neg hpk]
        by_cases hp2 : p.1 = k2
        · simp [if_pos hp2, hk2]
        · simp only [if_neg hp2]
          simp only [alistUpdate] at ih
          simp [ih, hk2]

theorem popAt_perm : ∀ (l : List Ref) (i : Nat), i < l.length →
    l.Perm ((popAt l i).1 :: (popAt l i).2) := by
  intro l
  induction l with
  | nil => intro i h; simp at h
  | cons a t ih =>
    intro i h
    cases i with
    | zero => simp [popAt]
    | succ j =>
      have hj : j < t.length := by simpa using h
      have := ih j hj
      simp only [popAt, List.getD_cons_succ, List.take_succ_cons, List.drop_succ_cons,
        List.cons_append] at *
      exact (List.Perm.cons a this).trans (List.Perm.swap _ _ _)

theorem takeWhile_all_append (p : Char → Bool) :
    ∀ (a b : Str), (∀ c ∈ a, p c = true) → (a ++ b).takeWhile p = a ++ b.takeWhile p := by
  intro a
  induction a with
  | nil => intro b _; simp
  | cons c t ih =>
    intro b h
    have hc : p c = true := h c (List.mem_cons_self _ _)
    simp only [List.cons_append, List.takeWhile_cons, hc, if_true]
    rw [ih b (fun d hd => h d (List.mem_cons_of_mem _ hd))]

theorem dropWhile_all_append (p : Char → Bool) :
    ∀ (a b : Str), (∀ c ∈ a, p c = true) → (a ++ b).dropWhile p = b.dropWhile p := by
  intro a
  induction a with
  | nil => intro b _; simp
  | cons c t ih =>
    intro b h
    have hc : p c = true := h c (List.mem_cons_self _ _)
    simp only [List.cons_append, List.dropWhile_cons, hc, if_true]
    exact ih b (fun d hd => h d (List.mem_cons_of_mem _ hd))

theorem mem_takeWhile_sat (p : Char → Bool) :
    ∀ (l : Str) (c : Char), c ∈ l.takeWhile p → p c = true := by
  intro l
  induction l with
  | nil => intro c h; simp at h
  | cons a t ih =>
    intro c h
    by_cases ha : p a = true
    · simp only [List.takeWhile_cons, ha, if_true, List.mem_cons] at h
      rcases h with rfl | h
      · exact ha
      · exact ih c h
    · simp only [List.takeWhile_cons, if_neg ha] at h
      simp at h

theorem dropWhile_head_false (p : Char → Bool) :
    ∀ (l : Str) (c : Char) (t : Str), l.dropWhile p = c :: t → p c = false := by
  intro l
  induction l with
  | nil => intro c t h; simp at h
  | cons a r ih =>
    intro c t h
    by_cases ha : p a = true
    · simp only [List.dropWhile_cons, ha, if_true] at h
      exact ih c t h
    · simp only [List.dropWhile_cons, if_neg ha] at h
      cases h
      simpa using ha

theorem getLast?_decomp : ∀ (l : Str) (c : Char), l.getLast? = some c → l = l.dropLast ++ [c] := by
  intro l
  induction l with
  | nil => intro c h; simp at h
  | cons a t ih =>
    intro c h
    cases t with
    | nil => simp_all [List.getLast?]
    | cons b r =>
      have ht : (b :: r).getLast? = some c := by
        rw [List.getLast?_cons_cons] at h
        exact h
      have := ih c ht
      calc a :: b :: r = a :: ((b :: r).dropLast ++ [c]) := by rw [← this]
        _ = (a :: b :: r).dropLast ++ [c] := by simp

theorem getLast?_mem : ∀ (l : Str) (c : Char), l.getLast? = some c → c ∈ l := by
  intro l c h
  rw [getLast?_decomp l c h]
  simp

/-! Lemmas about the reference codec. -/

theorem matchVersionGroup_sound (w v : Str) (h : matchVersionGroup w = some v) :
    v ≠ [] ∧ '\n' ∉ v ∧ (w = v ∨ w = v ++ ['\n']) := by
  unfold matchVersionGroup at h
  by_cases hl : w.getLast? = some '\n'
  · rw [if_pos hl] at h
    by_cases hg : w.dropLast = [] ∨ '\n' ∈ w.dropLast
    · rw [if_pos hg] at h; simp at h
    · rw [if_neg hg] at h
      push_neg at hg
      cases h
      exact ⟨hg.1, hg.2, Or.inr (getLast?_decomp w '\n' hl)⟩
  · rw [if_neg hl] at h
    by_cases hg : w = [] ∨ '\n' ∈ w
    · rw [if_pos hg] at h; simp at h
    · rw [if_neg hg] at h
      push_neg at hg
      cases h
      exact ⟨hg.1, hg.2, Or.inl rfl⟩

theorem matchVersionGroup_plain (v : Str) (hv : v ≠ []) (hnl : '\n' ∉ v) :
    matchVersionGroup v = some v := by
  unfold matchVersionGroup
  have hl : ¬ v.getLast? = some '\n' := fun h => hnl (getLast?_mem v '\n' h)
  rw [if_neg hl, if_neg (by push_neg; exact ⟨hv, hnl⟩)]

theorem matchVersionGroup_nl (v : Str) (hv : v ≠ []) (hnl : '\n' ∉ v) :
    matchVersionGroup (v ++ ['\n']) = some v := by
  unfold matchVersionGroup
  have hl : (v ++ ['\n']).getLast? = some '\n' := by
    simp [List.getLast?_concat]
  rw [if_pos hl]
  have hd : (v ++ ['\n']).dropLast = v := by simp
  rw [hd, if_neg (by push_neg; exact ⟨hv, hnl⟩)]

theorem parse_sound (s o n v : Str) (h : parse_uses_value s = .ok (o, n, v)) :
    o ≠ [] ∧ '/' ∉ o ∧ n ≠ [] ∧ '@' ∉ n ∧ v ≠ [] ∧ '\n' ∉ v ∧
      (s = o ++ '/' :: (n ++ '@' :: v) ∨ s = o ++ '/' :: (n ++ '@' :: (v ++ ['\n']))) := by
  unfold parse_uses_value at h
  cases hdw : s.dropWhile (fun c => !(c == '/')) with
  | nil => rw [hdw] at h; simp at h
  | cons c1 r2 =>
    rw [hdw] at h
    simp only [] at h
    by_cases ho : s.takeWhile (fun c => !(c == '/')) = []
    · rw [if_pos ho] at h; simp at h
    · rw [if_neg ho] at h
      cases hdw2 : r2.dropWhile (fun c => !(c == '@')) with
      | nil => rw [hdw2] at h; simp at h
      | cons c2 w =>
        rw [hdw2] at h
        simp only [] at h
        by_cases hn : r2.takeWhile (fun c => !(c == '@')) = []
        · rw [if_pos hn] at h; simp at h
        · rw [if_neg hn] at h
          cases hmv : matchVersionGroup w with
          | none => rw [hmv] at h; simp at h
          | some core =>
            rw [hmv] at h
            simp only [Except.ok.injEq, Prod.mk.injEq] at h
            obtain ⟨ho2, hn2, hv2⟩ := h
            subst hv2
            obtain ⟨hvne, hvnl, hw⟩ := matchVersionGroup_sound w core hmv
            have hc1 : c1 = '/' := by
              have := dropWhile_head_false _ s c1 r2 hdw
              simpa using this
            have hc2 : c2 = '@' := by
              have := dropWhile_head_false _ r2 c2 w hdw2
              simpa using this
            have hsplit1 : s = s.takeWhile (fun c => !(c == '/')) ++ c1 :: r2 := by
              have := List.takeWhile_append_dropWhile (p := fun c => !(c == '/')) (l := s)
              rw [hdw] at this
              exact this.symm
            have hsplit2 : r2 = r2.takeWhile (fun c => !(c == '@')) ++ c2 :: w := by
              have := List.takeWhile_append_dropWhile (p := fun c => !(c == '@')) (l := r2)
              rw [hdw2] at this
              exact this.symm
            have hslash : '/' ∉ s.takeWhile (fun c => !(c == '/')) := by
              intro hmem
              have := mem_takeWhile_sat _ s '/' hmem
              simp at this
            have hat : '@' ∉ r2.takeWhile (fun c => !(c == '@')) := by
              intro hmem
              have := mem_takeWhile_sat _ r2 '@' hmem
              simp at this
            subst ho2
            subst hn2
            refine ⟨ho, hslash, hn, hat, hvne, hvnl, ?_⟩
            rcases hw with hw | hw
            · left
              conv_lhs => rw [hsplit1, hc1, hsplit2, hc2, hw]
            · right
              conv_lhs => rw [hsplit1, hc1, hsplit2, hc2, hw]

theorem parse_complete_pos (o n w v : Str) (ho : o ≠ []) (hos : '/' ∉ o)
    (hn : n ≠ []) (hna : '@' ∉ n) (hw : matchVersionGroup w = some v) :
    parse_uses_value (o ++ '/' :: (n ++ '@' :: w)) = .ok (o, n, v) := by
  have hpo : ∀ c ∈ o, (fun c => !(c == '/')) c = true := by
    intro c hc
    by_cases hb : c = '/'
    · exact absurd (hb ▸ hc) hos
    · simp [hb]
  have hpn : ∀ c ∈ n, (fun c => !(c == '@')) c = true := by
    intro c hc
    by_cases hb : c = '@'
    · exact absurd (hb ▸ hc) hna
    · simp [hb]
  have e1 : (o ++ '/' :: (n ++ '@' :: w)).takeWhile (fun c => !(c == '/')) = o := by
    rw [takeWhile_all_append _ o _ hpo]
    simp [List.takeWhile_cons]
  have e2 : (o ++ '/' :: (n ++ '@' :: w)).dropWhile (fun c => !(c == '/')) =
      '/' :: (n ++ '@' :: w) := by
    rw [dropWhile_all_append _ o _ hpo]
    simp [List.dropWhile_cons]
  have e3 : (n ++ '@' :: w).takeWhile (fun c => !(c == '@')) = n := by
    rw [takeWhile_all_append _ n _ hpn]
    simp [List.takeWhile_cons]
  have e4 : (n ++ '@' :: w).dropWhile (fun c => !(c == '@')) = '@' :: w := by
    rw [dropWhile_all_append _ n _ hpn]
    simp [List.dropWhile_cons]
  unfold parse_uses_value
  rw [e2]
  simp only []
  rw [e1, if_neg ho, e3, e4]
  simp only []
  rw [if_neg hn, hw]

theorem parse_refOk (s : Str) (r : Ref) (h : parse_uses_value s = .ok r) :
    refOk r ∧ r ≠ MAIN_KEY := by
  obtain ⟨o, n, v⟩ := r
  obtain ⟨ho, _, hn, _, hv, _, _⟩ := parse_sound s o n v h
  refine ⟨⟨ho, hn, hv⟩, ?_⟩
  intro hm
  have h2 : n = [] := by
    have := congrArg (fun k : Ref => k.2.1) hm
    simpa [MAIN_KEY] using this
  exact hn h2

/-! Provenance of scanner and inspector output: every collected reference is
the output of a successful parse, and accumulators stay duplicate-free. -/

theorem scanUses_sound (acc : List Ref) (m : List (Str × Yaml)) (acc2 : List Ref)
    (h : scanUses acc m = .ok acc2) :
    acc2 = acc ∨ ∃ r s, acc2 = insertNew acc r ∧ parse_uses_value s = .ok r := by
  unfold scanUses at h
  cases hm : alookup m usesK with
  | none =>
    rw [hm] at h
    cases h
    exact Or.inl rfl
  | some u =>
    rw [hm] at h
    simp only [] at h
    by_cases ht : pyTruthy u = true
    · rw [if_pos ht] at h
      cases he : is_external_action u with
      | error e => rw [he] at h; simp at h
      | ok b =>
        rw [he] at h
        cases b with
        | false =>
          cases h
          exact Or.inl rfl
        | true =>
          cases u with
          | str s =>
            simp only [] at h
            cases hp : parse_uses_value s with
            | ok r =>
              rw [hp] at h
              cases h
              exact Or.inr ⟨r, s, rfl, hp⟩
            | error e =>
              rw [hp] at h
              cases h
              exact Or.inl rfl
          | int k => simp at h
          | bool b => simp at h
          | null => simp at h
          | map l => simp at h
          | seq l => simp at h
    · rw [if_neg ht] at h
      cases h
      exact Or.inl rfl

theorem scanUses_grow (acc : List Ref) (m : List (Str × Yaml)) (acc2 : List Ref)
    (h : scanUses acc m = .ok acc2) :
    (acc.Nodup → acc2.Nodup) ∧
      ∀ r ∈ acc2, r ∈ acc ∨ ∃ s, parse_uses_value s = .ok r := by
  rcases scanUses_sound acc m acc2 h with rfl | ⟨r, s, rfl, hp⟩
  · exact ⟨id, fun r hr => Or.inl hr⟩
  · constructor
    · exact fun hnd => nodup_insertNew _ _ hnd
    · intro y hy
      rcases (mem_insertNew _ _ _).mp hy with hy | rfl
      · exact Or.inl hy
      · exact Or.inr ⟨s, hp⟩

theorem workflowSteps_grow : ∀ (steps : List Yaml) (acc acc2 : List Ref),
    workflowSteps acc steps = .ok acc2 →
    (acc.Nodup → acc2.Nodup) ∧ ∀ r ∈ acc2, r ∈ acc ∨ ∃ s, parse_uses_value s = .ok r := by
  intro steps
  induction steps with
  | nil =>
    intro acc acc2 h
    cases h
    exact ⟨id, fun r hr => Or.inl hr⟩
  | cons s rest ih =>
    intro acc acc2 h
    cases s with
    | map m =>
      simp only [workflowSteps] at h
      cases hs : scanUses acc m with
      | error e => rw [hs] at h; simp at h
      | ok acc1 =>
        rw [hs] at h
        simp only [] at h
        obtain ⟨hnd1, hmem1⟩ := scanUses_grow acc m acc1 hs
        obtain ⟨hnd2, hmem2⟩ := ih acc1 acc2 h
        refine ⟨fun hd => hnd2 (hnd1 hd), ?_⟩
        intro r hr
        rcases hmem2 r hr with hr1 | hp
        · exact hmem1 r hr1
        · exact Or.inr hp
    | str t => exact ih acc acc2 h
    | int k => exact ih acc acc2 h
    | bool b => exact ih acc acc2 h
    | null => exact ih acc acc2 h
    | seq l => exact ih acc acc2 h

theorem compositeSteps_grow : ∀ (steps : List Yaml) (acc acc2 : List Ref),
    compositeSteps acc steps = .ok acc2 →
    (acc.Nodup → acc2.Nodup) ∧ ∀ r ∈ acc2, r ∈ acc ∨ ∃ s, parse_uses_value s = .ok r := by
  intro steps
  induction steps with
  | nil =>
    intro acc acc2 h
    cases h
    exact ⟨id, fun r hr => Or.inl hr⟩
  | cons s rest ih =>
    intro acc acc2 h
    cases s with
    | map m =>
      simp only [compositeSteps] at h
      cases hs : scanUses acc m with
      | error e => rw [hs] at h; simp at h
      | ok acc1 =>
        rw [hs] at h
        simp only [] at h
        obtain ⟨hnd1, hmem1⟩ := scanUses_grow acc m acc1 hs
        obtain ⟨hnd2, hmem2⟩ := ih acc1 acc2 h
        refine ⟨fun hd => hnd2 (hnd1 hd), ?_⟩
        intro r hr
        rcases hmem2 r hr with hr1 | hp
        · exact hmem1 r hr1
        · exact Or.inr hp
    | str t => simp [compositeSteps] at h
    | int k => simp [compositeSteps] at h
    | bool b => simp [compositeSteps] at h
    | null => simp [compositeSteps] at h
    | seq l => simp [compositeSteps] at h

theorem workflowJobs_grow : ∀ (jobs : List (Str × Yaml)) (acc acc2 : List Ref),
    workflowJobs acc jobs = .ok acc2 →
    (acc.Nodup → acc2.Nodup) ∧ ∀ r ∈ acc2, r ∈ acc ∨ ∃ s, parse_uses_value s = .ok r := by
  intro jobs
  induction jobs with
  | nil =>
    intro acc acc2 h
    cases h
    exact ⟨id, fun r hr => Or.inl hr⟩
  | cons p rest ih =>
    intro acc acc2 h
    obtain ⟨jn, jd⟩ := p
    cases jd with
    | map jm =>
      simp only [workflowJobs] at h
      cases hst : (alookup jm stepsK).getD (Yaml.seq []) with
      | seq steps =>
        rw [hst] at h
        simp only [] at h
        cases hw : workflowSteps acc steps with
        | error e => rw [hw] at h; simp at h
        | ok acc1 =>
          rw [hw] at h
          simp only [] at h
          obtain ⟨hnd1, hmem1⟩ := workflowSteps_grow steps acc acc1 hw
          obtain ⟨hnd2, hmem2⟩ := ih acc1 acc2 h
          refine ⟨fun hd => hnd2 (hnd1 hd), ?_⟩
          intro r hr
          rcases hmem2 r hr with hr1 | hp
          · exact hmem1 r hr1
          · exact Or.inr hp
      | str t => rw [hst] at h; exact ih acc acc2 h
      | int k => rw [hst] at h; exact ih acc acc2 h
      | bool b => rw [hst] at h; exact ih acc acc2 h
      | null => rw [hst] at h; exact ih acc acc2 h
      | map l => rw [hst] at h; exact ih acc acc2 h
    | str t => exact ih acc acc2 h
    | int k => exact ih acc acc2 h
    | bool b => exact ih acc acc2 h
    | null => exact ih acc acc2 h
    | seq l => exact ih acc acc2 h

theorem workflowDoc_grow (d : Except Str Yaml) (acc acc2 : List Ref)
    (h : workflowDoc acc d = .ok acc2) :
    (acc.Nodup → acc2.Nodup) ∧ ∀ r ∈ acc2, r ∈ acc ∨ ∃ s, parse_uses_value s = .ok r := by
  cases d with
  | error e =>
    cases h
    exact ⟨id, fun r hr => Or.inl hr⟩
  | ok y =>
    cases y with
    | map dm =>
      simp only [workflowDoc] at h
      cases hj : (alookup dm jobsK).getD (Yaml.map []) with
      | map jm =>
        rw [hj] at h
        simp only [] at h
        exact workflowJobs_grow jm acc acc2 h
      | str t => rw [hj] at h; cases h; exact ⟨id, fun r hr => Or.inl hr⟩
      | int k => rw [hj] at h; cases h; exact ⟨id, fun r hr => Or.inl hr⟩
      | bool b => rw [hj] at h; cases h; exact ⟨id, fun r hr => Or.inl hr⟩
      | null => rw [hj] at h; cases h; exact ⟨id, fun r hr => Or.inl hr⟩
      | seq l => rw [hj] at h; cases h; exact ⟨id, fun r hr => Or.inl hr⟩
    | str t => cases h; exact ⟨id, fun r hr => Or.inl hr⟩
    | int k => cases h; exact ⟨id, fun r hr => Or.inl hr⟩
    | bool b => cases h; exact ⟨id, fun r hr => Or.inl hr⟩
    | null => cases h; exact ⟨id, fun r hr => Or.inl hr⟩
    | seq l => cases h; exact ⟨id, fun r hr => Or.inl hr⟩

theorem workflowDocs_grow : ∀ (docs : List (Except Str Yaml)) (acc acc2 : List Ref),
    workflowDocs acc docs = .ok acc2 →
    (acc.Nodup → acc2.Nodup) ∧ ∀ r ∈ acc2, r ∈ acc ∨ ∃ s, parse_uses_value s = .ok r := by
  intro docs
  induction docs with
  | nil =>
    intro acc acc2 h
    cases h
    exact ⟨id, fun r hr => Or.inl hr⟩
  | cons d rest ih =>
    intro acc acc2 h
    simp only [workflowDocs] at h
    cases hd : workflowDoc acc d with
    | error e => rw [hd] at h; simp at h
    | ok acc1 =>
      rw [hd] at h
      simp only [] at h
      obtain ⟨hnd1, hmem1⟩ := workflowDoc_grow d acc acc1 hd
      obtain ⟨hnd2, hmem2⟩ := ih acc1 acc2 h
      refine ⟨fun hdp => hnd2 (hnd1 hdp), ?_⟩
      intro r hr
      rcases hmem2 r hr with hr1 | hp
      · exact hmem1 r hr1
      · exact Or.inr hp

theorem seed_sound (docs : List (Except Str Yaml)) (seed : List Ref)
    (h : get_actions_from_workflows docs = .ok seed) :
    seed.Nodup ∧ ∀ r ∈ seed, ∃ s, parse_uses_value s = .ok r := by
  obtain ⟨hnd, hmem⟩ := workflowDocs_grow docs [] seed h
  refine ⟨hnd List.nodup_nil, ?_⟩
  intro r hr
  rcases hmem r hr with hr1 | hp
  · simp at hr1
  · exact hp


/-! Equation lemmas that reduce the layered definitions one branch at a time. -/

theorem inspectorDoc_map (dm : List (Str × Yaml)) (df : Option (List Str))
    (rm : List (Str × Yaml)) (hr : (alookup dm runsK).getD (Yaml.map []) = Yaml.map rm) :
    inspectorDoc dm df = inspectorRuns rm df := by
  unfold inspectorDoc
  rw [hr]

theorem inspectorDoc_not_map (dm : List (Str × Yaml)) (df : Option (List Str))
    (hr : ∀ rm, (alookup dm runsK).getD (Yaml.map []) ≠ Yaml.map rm) :
    inspectorDoc dm df = .ok ([], []) := by
  unfold inspectorDoc
  cases h : (alookup dm runsK).getD (Yaml.map []) with
  | map rm => exact absurd h (hr rm)
  | str t => rfl
  | int k => rfl
  | bool b => rfl
  | null => rfl
  | seq l => rfl

theorem inspectorRuns_str (rm : List (Str × Yaml)) (df : Option (List Str)) (u : Str)
    (hu : alookup rm usingK = some (Yaml.str u)) :
    inspectorRuns rm df = inspectorUsing u rm df := by
  unfold inspectorRuns
  rw [hu]

theorem inspectorRuns_not_str (rm : List (Str × Yaml)) (df : Option (List Str))
    (hu : ∀ u, alookup rm usingK ≠ some (Yaml.str u)) :
    inspectorRuns rm df = .ok ([], []) := by
  unfold inspectorRuns
  cases h : alookup rm usingK with
  | none => rfl
  | some y =>
    cases y with
    | str u => exact absurd h (hu u)
    | int k => rfl
    | bool b => rfl
    | null => rfl
    | map l => rfl
    | seq l => rfl

theorem inspectorComposite_seq (rm : List (Str × Yaml)) (steps : List Yaml)
    (hst : (alookup rm stepsK).getD (Yaml.seq []) = Yaml.seq steps) :
    inspectorComposite rm = compositeResult steps := by
  unfold inspectorComposite
  rw [hst]

theorem inspectorComposite_not_seq (rm : List (Str × Yaml))
    (hst : ∀ steps, (alookup rm stepsK).getD (Yaml.seq []) ≠ Yaml.seq steps) :
    inspectorComposite rm = .ok ([], []) := by
  unfold inspectorComposite
  cases h : (alookup rm stepsK).getD (Yaml.seq []) with
  | seq steps => exact absurd h (hst steps)
  | str t => rfl
  | int k => rfl
  | bool b => rfl
  | null => rfl
  | map l => rfl

theorem compositeResult_ok (steps : List Yaml) (subs : List Ref)
    (h : compositeSteps [] steps = .ok subs) :
    compositeResult steps = .ok (subs, []) := by
  unfold compositeResult
  rw [h]

theorem compositeResult_err (steps : List Yaml) (e : Str)
    (h : compositeSteps [] steps = .error e) :
    compositeResult steps = .error e := by
  unfold compositeResult
  rw [h]

theorem inspectorImage_str (rm : List (Str × Yaml)) (df : Option (List Str)) (image : Str)
    (hi : alookup rm imageK = some (Yaml.str image)) :
    inspectorImage rm df = imageWarn image df := by
  unfold inspectorImage
  rw [hi]

theorem inspectorImage_not_str (rm : List (Str × Yaml)) (df : Option (List Str))
    (hi : ∀ image, alookup rm imageK ≠ some (Yaml.str image)) :
    inspectorImage rm df = [] := by
  unfold inspectorImage
  cases h : alookup rm imageK with
  | none => rfl
  | some y =>
    cases y with
    | str image => exact absurd h (hi image)
    | int k => rfl
    | bool b => rfl
    | null => rfl
    | map l => rfl
    | seq l => rfl

theorem processRef_fail (env : Env) (x : Ref) (m : Str)
    (h : envClone env x = .error m) : processRef env x = .cloneFail m := by
  unfold processRef
  rw [h]

theorem processRef_ok (env : Env) (x : Ref) (repo : RepoData)
    (h : envClone env x = .ok repo) : processRef env x = processRepo repo := by
  unfold processRef
  rw [h]

theorem processRepo_none (repo : RepoData) (h : repo.actionFile = none) :
    processRepo repo = .leaf := by
  unfold processRepo
  rw [h]

theorem processRepo_some (repo : RepoData) (af : ActionFile)
    (h : repo.actionFile = some af) : processRepo repo = processAF af repo.dockerfile := by
  unfold processRepo
  rw [h]

theorem processAF_err (af : ActionFile) (df : Option (List Str)) (e : Str)
    (h : get_actions_and_docker_warnings_from_action_file af.name af.content df = .error e) :
    processAF af df = .raised e := by
  unfold processAF
  rw [h]

theorem processAF_ok (af : ActionFile) (df : Option (List Str)) (subs : List Ref) (ws : List Str)
    (h : get_actions_and_docker_warnings_from_action_file af.name af.content df = .ok (subs, ws)) :
    processAF af df = .inspected subs ws := by
  unfold processAF
  rw [h]

theorem scanBody_cloneFail (env : Env) (x : Ref) (tv : List Ref) (st : ScanState) (m : Str)
    (h : processRef env x = .cloneFail m) :
    scanBody env x tv st = .ok { stVisitMark x tv st with log := st.log ++ [cloneWarnMsg x m] } := by
  unfold scanBody
  rw [h]

theorem scanBody_leaf (env : Env) (x : Ref) (tv : List Ref) (st : ScanState)
    (h : processRef env x = .leaf) : scanBody env x tv st = .ok (stVisitMark x tv st) := by
  unfold scanBody
  rw [h]

theorem scanBody_raised (env : Env) (x : Ref) (tv : List Ref) (st : ScanState) (e : Str)
    (h : processRef env x = .raised e) : scanBody env x tv st = .error e := by
  unfold scanBody
  rw [h]

theorem scanBody_inspected (env : Env) (x : Ref) (tv : List Ref) (st : ScanState)
    (subs : List Ref) (ws : List Str) (h : processRef env x = .inspected subs ws) :
    scanBody env x tv st = .ok (subs.foldl (addChild x)
      { stVisitMark x tv st with
        warns := alistUpdate (stVisitMark x tv st).warns x (fun l => l ++ ws) }) := by
  unfold scanBody
  rw [h]

theorem scanLoop_nil (env : Env) (oracle : Nat → Nat) (fuel n : Nat) (st : ScanState)
    (h : st.toVisit = []) : scanLoop env oracle fuel n st = some (.ok st) := by
  cases fuel with
  | zero => simp [scanLoop, h]
  | succ f => simp [scanLoop, h]

theorem scanLoop_zero_cons (env : Env) (oracle : Nat → Nat) (n : Nat) (st : ScanState)
    (h : st.toVisit ≠ []) : scanLoop env oracle 0 n st = none := by
  simp [scanLoop, h]

theorem scanLoop_succ_visited (env : Env) (oracle : Nat → Nat) (fuel n : Nat) (st : ScanState)
    (h : st.toVisit ≠ [])
    (hx : (popAt st.toVisit (oracle n % st.toVisit.length)).1 ∈ st.visited) :
    scanLoop env oracle (fuel + 1) n st = scanLoop env oracle fuel (n + 1)
      { st with toVisit := (popAt st.toVisit (oracle n % st.toVisit.length)).2 } := by
  conv_lhs => rw [scanLoop]
  rw [if_neg h, if_pos hx]

theorem scanLoop_succ_new (env : Env) (oracle : Nat → Nat) (fuel n : Nat) (st : ScanState)
    (st2 : ScanState) (h : st.toVisit ≠ [])
    (hx : (popAt st.toVisit (oracle n % st.toVisit.length)).1 ∉ st.visited)
    (hb : scanBody env (popAt st.toVisit (oracle n % st.toVisit.length)).1
      (popAt st.toVisit (oracle n % st.toVisit.length)).2 st = .ok st2) :
    scanLoop env oracle (fuel + 1) n st = scanLoop env oracle fuel (n + 1) st2 := by
  conv_lhs => rw [scanLoop]
  rw [if_neg h, if_neg hx, hb]

theorem scanLoop_succ_raise (env : Env) (oracle : Nat → Nat) (fuel n : Nat) (st : ScanState)
    (e : Str) (h : st.toVisit ≠ [])
    (hx : (popAt st.toVisit (oracle n % st.toVisit.length)).1 ∉ st.visited)
    (hb : scanBody env (popAt st.toVisit (oracle n % st.toVisit.length)).1
      (popAt st.toVisit (oracle n % st.toVisit.length)).2 st = .error e) :
    scanLoop env oracle (fuel + 1) n st = some (.error e) := by
  conv_lhs => rw [scanLoop]
  rw [if_neg h, if_neg hx, hb]

theorem inspector_children_sound (name : Str) (content : Except Str Yaml)
    (df : Option (List Str)) (subs : List Ref) (ws : List Str)
    (h : get_actions_and_docker_warnings_from_action_file name content df = .ok (subs, ws)) :
    subs.Nodup ∧ ∀ r ∈ subs, ∃ s, parse_uses_value s = .ok r := by
  have triv : ∀ (l : List Str),
      (Except.ok (([] : List Ref), l) : Except Str (List Ref × List Str)) = Except.ok (subs, ws) →
      subs.Nodup ∧ ∀ r ∈ subs, ∃ s, parse_uses_value s = .ok r := by
    intro l he
    simp only [Except.ok.injEq, Prod.mk.injEq] at he
    obtain ⟨h1, _⟩ := he
    subst h1
    exact ⟨List.nodup_nil, by simp⟩
  cases content with
  | error e =>
    simp only [get_actions_and_docker_warnings_from_action_file] at h
    exact triv _ h
  | ok doc =>
    cases doc with
    | str t => simp only [get_actions_and_docker_warnings_from_action_file] at h; exact triv _ h
    | int k => simp only [get_actions_and_docker_warnings_from_action_file] at h; exact triv _ h
    | bool b => simp only [get_actions_and_docker_warnings_from_action_file] at h; exact triv _ h
    | null => simp only [get_actions_and_docker_warnings_from_action_file] at h; exact triv _ h
    | seq l => simp only [get_actions_and_docker_warnings_from_action_file] at h; exact triv _ h
    | map dm =>
      simp only [get_actions_and_docker_warnings_from_action_file] at h
      cases hr : (alookup dm runsK).getD (Yaml.map []) with
      | map rm =>
        rw [inspectorDoc_map dm df rm hr] at h
        cases hu : alookup rm usingK with
        | none =>
          rw [inspectorRuns_not_str rm df (by simp [hu])] at h
          exact triv _ h
        | some y =>
          cases y with
          | str u =>
            rw [inspectorRuns_str rm df u hu] at h
            unfold inspectorUsing at h
            by_cases hd : u = dockerS
            · rw [if_pos hd] at h
              exact triv _ h
            · rw [if_neg hd] at h
              by_cases hc : u = compositeS
              · rw [if_pos hc] at h
                cases hst : (alookup rm stepsK).getD (Yaml.seq []) with
                | seq steps =>
                  rw [inspectorComposite_seq rm steps hst] at h
                  cases hcs : compositeSteps [] steps with
                  | error e2 => rw [compositeResult_err steps e2 hcs] at h; simp at h
                  | ok subs2 =>
                    rw [compositeResult_ok steps subs2 hcs] at h
                    simp only [Except.ok.injEq, Prod.mk.injEq] at h
                    obtain ⟨h1, _⟩ := h
                    subst h1
                    obtain ⟨hnd, hmem⟩ := compositeSteps_grow steps [] subs2 hcs
                    refine ⟨hnd List.nodup_nil, ?_⟩
                    intro r hr2
                    rcases hmem r hr2 with hr1 | hpp
                    · simp at hr1
                    · exact hpp
                | str t => rw [inspectorComposite_not_seq rm (by simp [hst])] at h; exact triv _ h
                | int k => rw [inspectorComposite_not_seq rm (by simp [hst])] at h; exact triv _ h
                | bool b => rw [inspectorComposite_not_seq rm (by simp [hst])] at h; exact triv _ h
                | null => rw [inspectorComposite_not_seq rm (by simp [hst])] at h; exact triv _ h
                | map l2 => rw [inspectorComposite_not_seq rm (by simp [hst])] at h; exact triv _ h
              · rw [if_neg hc] at h
                exact triv _ h
          | int k => rw [inspectorRuns_not_str rm df (by simp [hu])] at h; exact triv _ h
          | bool b => rw [inspectorRuns_not_str rm df (by simp [hu])] at h; exact triv _ h
          | null => rw [inspectorRuns_not_str rm df (by simp [hu])] at h; exact triv _ h
          | map l2 => rw [inspectorRuns_not_str rm df (by simp [hu])] at h; exact triv _ h
          | seq l2 => rw [inspectorRuns_not_str rm df (by simp [hu])] at h; exact triv _ h
      | str t => rw [inspectorDoc_not_map dm df (by simp [hr])] at h; exact triv _ h
      | int k => rw [inspectorDoc_not_map dm df (by simp [hr])] at h; exact triv _ h
      | bool b => rw [inspectorDoc_not_map dm df (by simp [hr])] at h; exact triv _ h
      | null => rw [inspectorDoc_not_map dm df (by simp [hr])] at h; exact triv _ h
      | seq l2 => rw [inspectorDoc_not_map dm df (by simp [hr])] at h; exact triv _ h

theorem kidsOf_eq (env : Env) (x : Ref) (subs : List Ref) (ws : List Str)
    (h : processRef env x = .inspected subs ws) : kidsOf env x = subs := by
  unfold kidsOf
  rw [h]

theorem warnsOf_eq (env : Env) (x : Ref) (subs : List Ref) (ws : List Str)
    (h : processRef env x = .inspected subs ws) : warnsOf env x = ws := by
  unfold warnsOf
  rw [h]

theorem kidsOf_fail (env : Env) (x : Ref) (m : Str)
    (h : processRef env x = .cloneFail m) : kidsOf env x = [] ∧ warnsOf env x = [] := by
  unfold kidsOf warnsOf
  rw [h]
  exact ⟨rfl, rfl⟩

theorem kidsOf_leaf (env : Env) (x : Ref)
    (h : processRef env x = .leaf) : kidsOf env x = [] ∧ warnsOf env x = [] := by
  unfold kidsOf warnsOf
  rw [h]
  exact ⟨rfl, rfl⟩

theorem kidsOf_raised (env : Env) (x : Ref) (e : Str)
    (h : processRef env x = .raised e) : kidsOf env x = [] ∧ warnsOf env x = [] := by
  unfold kidsOf warnsOf
  rw [h]
  exact ⟨rfl, rfl⟩

theorem kidsOf_sound (env : Env) (x : Ref) :
    ∀ y ∈ kidsOf env x, ∃ s, parse_uses_value s = .ok y := by
  cases hp : processRef env x with
  | cloneFail m => rw [(kidsOf_fail env x m hp).1]; simp
  | leaf => rw [(kidsOf_leaf env x hp).1]; simp
  | raised e => rw [(kidsOf_raised env x e hp).1]; simp
  | inspected subs ws =>
    rw [kidsOf_eq env x subs ws hp]
    unfold processRef at hp
    cases hc : envClone env x with
    | error m => rw [hc] at hp; simp at hp
    | ok repo =>
      rw [hc] at hp
      simp only [] at hp
      unfold processRepo at hp
      cases haf : repo.actionFile with
      | none => rw [haf] at hp; simp at hp
      | some af =>
        rw [haf] at hp
        simp only [] at hp
        unfold processAF at hp
        cases hi : get_actions_and_docker_warnings_from_action_file af.name af.content
            repo.dockerfile with
        | error e => rw [hi] at hp; simp at hp
        | ok p =>
          obtain ⟨subs2, ws2⟩ := p
          rw [hi] at hp
          simp only [ProcOut.inspected.injEq] at hp
          obtain ⟨h1, _⟩ := hp
          subst h1
          exact (inspector_children_sound af.name af.content repo.dockerfile subs2 ws2 hi).2

/-! Behaviour of recording a popped reference's children (the inner `for` loop). -/

theorem foldl_addChild_frozen (x : Ref) : ∀ (subs : List Ref) (st : ScanState),
    (subs.foldl (addChild x) st).visited = st.visited ∧
    (subs.foldl (addChild x) st).acquired = st.acquired ∧
    (subs.foldl (addChild x) st).log = st.log ∧
    (subs.foldl (addChild x) st).warns = st.warns := by
  intro subs
  induction subs with
  | nil => intro st; exact ⟨rfl, rfl, rfl, rfl⟩
  | cons sa rest ih =>
    intro st
    simpa [List.foldl_cons, addChild] using ih (addChild x st sa)

theorem foldl_addChild_all_mem (x : Ref) : ∀ (subs : List Ref) (st : ScanState) (y : Ref),
    (y ∈ (subs.foldl (addChild x) st).allDisc ↔ y ∈ st.allDisc ∨ y ∈ subs) := by
  intro subs
  induction subs with
  | nil => intro st y; simp
  | cons sa rest ih =>
    intro st y
    rw [List.foldl_cons, ih (addChild x st sa) y]
    simp only [addChild, mem_insertNew, List.mem_cons]
    tauto

theorem foldl_addChild_tv_mem (x : Ref) : ∀ (subs : List Ref) (st : ScanState) (y : Ref),
    (y ∈ (subs.foldl (addChild x) st).toVisit ↔
      y ∈ st.toVisit ∨ (y ∈ subs ∧ y ∉ st.allDisc)) := by
  intro subs
  induction subs with
  | nil => intro st y; simp
  | cons sa rest ih =>
    intro st y
    rw [List.foldl_cons, ih (addChild x st sa) y]
    simp only [addChild, mem_insertNew, List.mem_cons]
    by_cases hsa : sa ∈ st.allDisc
    · simp only [if_pos hsa]
      constructor
      · rintro (hy | ⟨hy1, hy2⟩)
        · exact Or.inl hy
        · push_neg at hy2
          exact Or.inr ⟨Or.inr hy1, hy2.1⟩
      · rintro (hy | ⟨hy1 | hy1, hy2⟩)
        · exact Or.inl hy
        · subst hy1
          exact absurd hsa hy2
        · refine Or.inr ⟨hy1, ?_⟩
          rintro (hc | rfl)
          · exact hy2 hc
          · exact hy2 hsa
    · simp only [if_neg hsa, List.mem_append, List.mem_singleton]
      constructor
      · rintro ((hy | rfl) | ⟨hy1, hy2⟩)
        · exact Or.inl hy
        · exact Or.inr ⟨Or.inl rfl, hsa⟩
        · push_neg at hy2
          exact Or.inr ⟨Or.inr hy1, hy2.1⟩
      · rintro (hy | ⟨hy1 | hy1, hy2⟩)
        · exact Or.inl (Or.inl hy)
        · exact Or.inl (Or.inr hy1)
        · by_cases hysa : y = sa
          · exact Or.inl (Or.inr hysa)
          · refine Or.inr ⟨hy1, ?_⟩
            rintro (hc | rfl)
            · exact hy2 hc
            · exact hysa rfl

theorem foldl_addChild_tv_len (x : Ref) : ∀ (subs : List Ref) (st : ScanState),
    (subs.foldl (addChild x) st).toVisit.length ≤ st.toVisit.length + subs.length := by
  intro subs
  induction subs with
  | nil => intro st; simp
  | cons sa rest ih =>
    intro st
    rw [List.foldl_cons]
    refine le_trans (ih (addChild x st sa)) ?_
    simp only [addChild, List.length_cons]
    by_cases hsa : sa ∈ st.allDisc
    · simp only [if_pos hsa]
      omega
    · simp only [if_neg hsa, List.length_append, List.length_singleton]
      omega

theorem foldl_addChild_graph_x (x : Ref) : ∀ (subs : List Ref) (st : ScanState),
    alookup (subs.foldl (addChild x) st).graph x =
      (alookup st.graph x).map (fun cs => subs.foldl insertNew cs) := by
  intro subs
  induction subs with
  | nil =>
    intro st
    cases h : alookup st.graph x <;> simp [h]
  | cons sa rest ih =>
    intro st
    rw [List.foldl_cons, ih (addChild x st sa)]
    simp only [addChild, alookup_update, if_pos rfl]
    cases h : alookup st.graph x <;> simp [h]

theorem foldl_addChild_graph_ne (x k : Ref) (hk : k ≠ x) : ∀ (subs : List Ref) (st : ScanState),
    alookup (subs.foldl (addChild x) st).graph k = alookup st.graph k := by
  intro subs
  induction subs with
  | nil => intro st; rfl
  | cons sa rest ih =>
    intro st
    rw [List.foldl_cons, ih (addChild x st sa)]
    simp only [addChild, alookup_update, if_neg hk]

theorem foldl_addChild_invs (x : Ref) : ∀ (subs : List Ref) (st : ScanState),
    st.toVisit.Nodup → st.allDisc.Nodup → (∀ y ∈ st.toVisit, y ∈ st.allDisc) →
    ((subs.foldl (addChild x) st).toVisit.Nodup ∧
     (subs.foldl (addChild x) st).allDisc.Nodup ∧
     (∀ y ∈ (subs.foldl (addChild x) st).toVisit, y ∈ (subs.foldl (addChild x) st).allDisc)) := by
  intro subs
  induction subs with
  | nil => intro st h1 h2 h3; exact ⟨h1, h2, h3⟩
  | cons sa rest ih =>
    intro st h1 h2 h3
    rw [List.foldl_cons]
    refine ih (addChild x st sa) ?_ ?_ ?_
    · simp only [addChild]
      by_cases hsa : sa ∈ st.allDisc
      · simpa [if_pos hsa] using h1
      · simp only [if_neg hsa]
        exact nodup_concat_of _ _ h1 (fun hc => hsa (h3 sa hc))
    · simp only [addChild]
      exact nodup_insertNew _ _ h2
    · intro y hy
      simp only [addChild] at hy ⊢
      rw [mem_insertNew]
      by_cases hsa : sa ∈ st.allDisc
      · rw [if_pos hsa] at hy
        exact Or.inl (h3 y hy)
      · rw [if_neg hsa] at hy
        rcases List.mem_append.mp hy with hy | hy
        · exact Or.inl (h3 y hy)
        · exact Or.inr (List.mem_singleton.mp hy)

/-! Termination: the potential strictly decreases at every iteration. -/

theorem weightAux_mono (env : Env) (visited : List Ref) (x : Ref) :
    ∀ l, weightAux env (visited ++ [x]) l ≤ weightAux env visited l := by
  intro l
  induction l with
  | nil => simp [weightAux]
  | cons p rest ih =>
    simp only [weightAux]
    have h4 : (if p.1 ∈ visited ++ [x] then 0 else (kidsOf env p.1).length) ≤
        (if p.1 ∈ visited then 0 else (kidsOf env p.1).length) := by
      by_cases hb : p.1 ∈ visited
      · simp [hb]
      · by_cases ha : p.1 ∈ visited ++ [x] <;> simp [ha, hb]
    omega

theorem weightAux_drop (env : Env) (visited : List Ref) (x : Ref) (hx : x ∉ visited) :
    ∀ l, (∃ e ∈ l, e.1 = x) →
      (kidsOf env x).length + weightAux env (visited ++ [x]) l ≤ weightAux env visited l := by
  intro l
  induction l with
  | nil =>
    rintro ⟨e, he, _⟩
    simp at he
  | cons p rest ih =>
    rintro ⟨e, he, hex⟩
    rcases List.mem_cons.mp he with rfl | he2
    · simp only [weightAux]
      rw [if_pos (by simp [hex]), if_neg (by rw [hex]; exact hx)]
      have h3 := weightAux_mono env visited x rest
      rw [hex]
      omega
    · simp only [weightAux]
      have h3 := ih ⟨e, he2, hex⟩
      have h4 : (if p.1 ∈ visited ++ [x] then 0 else (kidsOf env p.1).length) ≤
          (if p.1 ∈ visited then 0 else (kidsOf env p.1).length) := by
        by_cases hb : p.1 ∈ visited
        · simp [hb]
        · by_cases ha : p.1 ∈ visited ++ [x] <;> simp [ha, hb]
      omega

theorem envClone_ok_entry (env : Env) (x : Ref) (repo : RepoData)
    (h : envClone env x = .ok repo) : ∃ e ∈ env, e.1 = x := by
  unfold envClone at h
  cases ha : alookup env x with
  | none => rw [ha] at h; simp at h
  | some v => exact ⟨(x, v), alookup_some_mem env x v ha, rfl⟩

theorem processRef_entry (env : Env) (x : Ref) (subs : List Ref) (ws : List Str)
    (h : processRef env x = .inspected subs ws) : ∃ e ∈ env, e.1 = x := by
  cases hc : envClone env x with
  | error m => rw [processRef_fail env x m hc] at h; simp at h
  | ok repo => exact envClone_ok_entry env x repo hc

theorem scanLoop_terminates (env : Env) (oracle : Nat → Nat) :
    ∀ (fuel n : Nat) (st : ScanState), potential env st ≤ fuel →
    scanLoop env oracle fuel n st ≠ none := by
  intro fuel
  induction fuel with
  | zero =>
    intro n st hpot
    have hnil : st.toVisit = [] := by
      unfold potential at hpot
      cases h : st.toVisit with
      | nil => rfl
      | cons a t => rw [h] at hpot; simp at hpot
    rw [scanLoop_nil env oracle 0 n st hnil]
    simp
  | succ fuel ih =>
    intro n st hpot
    by_cases hnil : st.toVisit = []
    · rw [scanLoop_nil env oracle _ n st hnil]
      simp
    · have hpos : 0 < st.toVisit.length := List.length_pos.mpr hnil
      have hilt : oracle n % st.toVisit.length < st.toVisit.length := Nat.mod_lt _ hpos
      have hperm := popAt_perm st.toVisit (oracle n % st.toVisit.length) hilt
      have hlen : st.toVisit.length =
          (popAt st.toVisit (oracle n % st.toVisit.length)).2.length + 1 := by
        have := hperm.length_eq
        simpa using this
      by_cases hx : (popAt st.toVisit (oracle n % st.toVisit.length)).1 ∈ st.visited
      · rw [scanLoop_succ_visited env oracle fuel n st hnil hx]
        apply ih
        unfold potential at hpot ⊢
        simp only []
        omega
      · cases hb : scanBody env (popAt st.toVisit (oracle n % st.toVisit.length)).1
            (popAt st.toVisit (oracle n % st.toVisit.length)).2 st with
        | error e =>
          rw [scanLoop_succ_raise env oracle fuel n st e hnil hx hb]
          simp
        | ok st2 =>
          rw [scanLoop_succ_new env oracle fuel n st st2 hnil hx hb]
          apply ih
          cases hp : processRef env (popAt st.toVisit (oracle n % st.toVisit.length)).1 with
          | cloneFail m =>
            rw [scanBody_cloneFail env _ _ st m hp] at hb
            cases hb
            have hm := weightAux_mono env st.visited
              (popAt st.toVisit (oracle n % st.toVisit.length)).1 env
            unfold potential at hpot ⊢
            simp only [stVisitMark] at *
            omega
          | leaf =>
            rw [scanBody_leaf env _ _ st hp] at hb
            cases hb
            have hm := weightAux_mono env st.visited
              (popAt st.toVisit (oracle n % st.toVisit.length)).1 env
            unfold potential at hpot ⊢
            simp only [stVisitMark] at *
            omega
          | raised e =>
            rw [scanBody_raised env _ _ st e hp] at hb
            simp at hb
          | inspected subs ws =>
            rw [scanBody_inspected env _ _ st subs ws hp] at hb
            cases hb
            have hlen2 := foldl_addChild_tv_len (popAt st.toVisit (oracle n % st.toVisit.length)).1
              subs { stVisitMark (popAt st.toVisit (oracle n % st.toVisit.length)).1
                  (popAt st.toVisit (oracle n % st.toVisit.length)).2 st with
                warns := alistUpdate (stVisitMark (popAt st.toVisit (oracle n % st.toVisit.length)).1
                  (popAt st.toVisit (oracle n % st.toVisit.length)).2 st).warns
                  (popAt st.toVisit (oracle n % st.toVisit.length)).1 (fun l => l ++ ws) }
            have hkids := kidsOf_eq env (popAt st.toVisit (oracle n % st.toVisit.length)).1 subs ws hp
            have hentry := processRef_entry env (popAt st.toVisit (oracle n % st.toVisit.length)).1
              subs ws hp
            have hdrop := weightAux_drop env st.visited
              (popAt st.toVisit (oracle n % st.toVisit.length)).1 hx env hentry
            have hfv := foldl_addChild_frozen (popAt st.toVisit (oracle n % st.toVisit.length)).1
              subs { stVisitMark (popAt st.toVisit (oracle n % st.toVisit.length)).1
                  (popAt st.toVisit (oracle n % st.toVisit.length)).2 st with
                warns := alistUpdate (stVisitMark (popAt st.toVisit (oracle n % st.toVisit.length)).1
                  (popAt st.toVisit (oracle n % st.toVisit.length)).2 st).warns
                  (popAt st.toVisit (oracle n % st.toVisit.length)).1 (fun l => l ++ ws) }
            unfold potential at hpot ⊢
            rw [hfv.1]
            rw [hkids] at hdrop
            simp only [stVisitMark] at *
            omega

theorem MAIN_not_refOk : ¬ refOk MAIN_KEY := by
  intro h
  exact h.2.1 rfl

theorem graphSpec_concat (env : Env) (seed visited : List Ref) (x k : Ref)
    (hxM : x ≠ MAIN_KEY) :
    graphSpec env seed (visited ++ [x]) k =
      if k = x then some (childListOf env x) else graphSpec env seed visited k := by
  unfold graphSpec
  by_cases hkM : k = MAIN_KEY
  · subst hkM
    rw [if_pos rfl, if_neg (fun h => hxM h.symm), if_pos rfl]
  · rw [if_neg hkM]
    by_cases hkx : k = x
    · subst hkx
      rw [if_pos (by simp), if_pos rfl]
    · rw [if_neg hkx, if_neg hkM]
      by_cases hkv : k ∈ visited
      · rw [if_pos (by simp [hkv]), if_pos hkv]
      · rw [if_neg (by simp [hkv, hkx]), if_neg hkv]

theorem warnsSpec_concat (env : Env) (visited : List Ref) (x k : Ref)
    (hxM : x ≠ MAIN_KEY) :
    warnsSpec env (visited ++ [x]) k =
      if k = x then some (warnsOf env x) else warnsSpec env visited k := by
  unfold warnsSpec
  by_cases hkM : k = MAIN_KEY
  · subst hkM
    rw [if_pos rfl, if_neg (fun h => hxM h.symm), if_pos rfl]
  · rw [if_neg hkM]
    by_cases hkx : k = x
    · subst hkx
      rw [if_pos (by simp), if_pos rfl]
    · rw [if_neg hkx, if_neg hkM]
      by_cases hkv : k ∈ visited
      · rw [if_pos (by simp [hkv]), if_pos hkv]
      · rw [if_neg (by simp [hkv, hkx]), if_neg hkv]

theorem envClone_unique_fail (env : Env) (x : Ref) (m m2 : Str)
    (h1 : envClone env x = .error m) (h2 : envClone env x = .error m2) : m = m2 := by
  rw [h1] at h2
  cases h2
  rfl

theorem scanBody_inv (env : Env) (seed : List Ref) (st st2 : ScanState) (x : Ref) (tv : List Ref)
    (hInv : LoopInv env seed st)
    (hperm : st.toVisit.Perm (x :: tv))
    (hx : x ∉ st.visited)
    (hb : scanBody env x tv st = .ok st2) :
    LoopInv env seed st2 := by
  have hxtv : x ∈ st.toVisit := hperm.mem_iff.mpr (List.mem_cons_self x tv)
  have htv_sub : ∀ y ∈ tv, y ∈ st.toVisit :=
    fun y hy => hperm.mem_iff.mpr (List.mem_cons_of_mem x hy)
  have hnd_cons : (x :: tv).Nodup := (hperm.nodup_iff).mp hInv.ndTv
  have hxnotv : x ∉ tv := (List.nodup_cons.mp hnd_cons).1
  have hndtv : tv.Nodup := (List.nodup_cons.mp hnd_cons).2
  have hxAll : x ∈ st.allDisc := hInv.tvAll x hxtv
  have hxOk : refOk x := hInv.allOk x hxAll
  have hxM : x ≠ MAIN_KEY := fun he => MAIN_not_refOk (he ▸ hxOk)
  have hg1 : ∀ k, alookup (alistSetdefault st.graph x []) k =
      if k = x then some [] else graphSpec env seed st.visited k := by
    intro k
    by_cases hk : k = x
    · subst hk
      rw [alookup_setdefault_self, hInv.graphChar]
      have hnone : graphSpec env seed st.visited k = none := by
        unfold graphSpec
        rw [if_neg hxM, if_neg hx]
      rw [hnone, if_pos rfl]
      rfl
    · rw [alookup_setdefault_ne _ _ _ _ hk, hInv.graphChar, if_neg hk]
  have hw1 : ∀ k, alookup (alistSetdefault st.warns x []) k =
      if k = x then some [] else warnsSpec env st.visited k := by
    intro k
    by_cases hk : k = x
    · subst hk
      rw [alookup_setdefault_self, hInv.warnsChar]
      have hnone : warnsSpec env st.visited k = none := by
        unfold warnsSpec
        rw [if_neg hxM, if_neg hx]
      rw [hnone, if_pos rfl]
      rfl
    · rw [alookup_setdefault_ne _ _ _ _ hk, hInv.warnsChar, if_neg hk]
  have hvisAll1 : ∀ y, y ∈ st.visited ++ [x] → y ∈ st.allDisc := by
    intro y hy
    rcases List.mem_append.mp hy with hy | hy
    · exact hInv.visAll y hy
    · rw [List.mem_singleton.mp hy]
      exact hxAll
  have htvVis1 : ∀ y, y ∈ tv → y ∉ st.visited ++ [x] := by
    intro y hy hc
    rcases List.mem_append.mp hc with hc | hc
    · exact hInv.tvVis y (htv_sub y hy) hc
    · rw [List.mem_singleton.mp hc] at hy
      exact hxnotv hy
  cases hp : processRef env x with
  | raised e =>
    rw [scanBody_raised env x tv st e hp] at hb
    simp at hb
  | cloneFail m =>
    rw [scanBody_cloneFail env x tv st m hp] at hb
    cases hb
    obtain ⟨hk0, hw0⟩ := kidsOf_fail env x m hp
    refine { ndTv := ?_, ndVis := ?_, ndAll := ?_, tvAll := ?_, visAll := ?_, allSplit := ?_,
             tvVis := ?_, seedAll := ?_, allReach := ?_, visKids := ?_, allOk := ?_,
             graphChar := ?_, warnsChar := ?_, acqVis := ?_, logClone := ?_ }
    · exact hndtv
    · exact nodup_concat_of _ _ hInv.ndVis hx
    · exact hInv.ndAll
    · exact fun y hy => hInv.tvAll y (htv_sub y hy)
    · exact hvisAll1
    · intro y hy
      rcases hInv.allSplit y hy with hy2 | hy2
      · exact Or.inl (List.mem_append_left _ hy2)
      · rcases List.mem_cons.mp (hperm.mem_iff.mp hy2) with rfl | hy3
        · exact Or.inl (List.mem_append_right _ (List.mem_singleton_self _))
        · exact Or.inr hy3
    · exact htvVis1
    · exact hInv.seedAll
    · exact hInv.allReach
    · intro y hy z hz
      rcases List.mem_append.mp hy with hy | hy
      · exact hInv.visKids y hy z hz
      · rw [List.mem_singleton.mp hy] at hz
        rw [hk0] at hz
        simp at hz
    · exact hInv.allOk
    · intro k
      simp only [stVisitMark]
      rw [hg1 k, graphSpec_concat env seed st.visited x k hxM]
      by_cases hk : k = x
      · simp [hk, childListOf, hk0]
      · simp [hk]
    · intro k
      simp only [stVisitMark]
      rw [hw1 k, warnsSpec_concat env st.visited x k hxM]
      by_cases hk : k = x
      · simp [hk, hw0]
      · simp [hk]
    · simp only [stVisitMark]
      rw [hInv.acqVis]
    · intro y m2 hy hcl
      simp only [stVisitMark]
      rcases List.mem_append.mp hy with hy | hy
      · exact List.mem_append_left _ (hInv.logClone y m2 hy hcl)
      · rw [List.mem_singleton.mp hy] at hcl
        have h5 := (processRef_fail env x m2 hcl).symm.trans hp
        simp only [ProcOut.cloneFail.injEq] at h5
        rw [List.mem_singleton.mp hy, h5]
        exact List.mem_append_right _ (List.mem_singleton_self _)
  | leaf =>
    rw [scanBody_leaf env x tv st hp] at hb
    cases hb
    obtain ⟨hk0, hw0⟩ := kidsOf_leaf env x hp
    refine { ndTv := ?_, ndVis := ?_, ndAll := ?_, tvAll := ?_, visAll := ?_, allSplit := ?_,
             tvVis := ?_, seedAll := ?_, allReach := ?_, visKids := ?_, allOk := ?_,
             graphChar := ?_, warnsChar := ?_, acqVis := ?_, logClone := ?_ }
    · exact hndtv
    · exact nodup_concat_of _ _ hInv.ndVis hx
    · exact hInv.ndAll
    · exact fun y hy => hInv.tvAll y (htv_sub y hy)
    · exact hvisAll1
    · intro y hy
      rcases hInv.allSplit y hy with hy2 | hy2
      · exact Or.inl (List.mem_append_left _ hy2)
      · rcases List.mem_cons.mp (hperm.mem_iff.mp hy2) with rfl | hy3
        · exact Or.inl (List.mem_append_right _ (List.mem_singleton_self _))
        · exact Or.inr hy3
    · exact htvVis1
    · exact hInv.seedAll
    · exact hInv.allReach
    · intro y hy z hz
      rcases List.mem_append.mp hy with hy | hy
      · exact hInv.visKids y hy z hz
      · rw [List.mem_singleton.mp hy] at hz
        rw [hk0] at hz
        simp at hz
    · exact hInv.allOk
    · intro k
      simp only [stVisitMark]
      rw [hg1 k, graphSpec_concat env seed st.visited x k hxM]
      by_cases hk : k = x
      · simp [hk, childListOf, hk0]
      · simp [hk]
    · intro k
      simp only [stVisitMark]
      rw [hw1 k, warnsSpec_concat env st.visited x k hxM]
      by_cases hk : k = x
      · simp [hk, hw0]
      · simp [hk]
    · simp only [stVisitMark]
      rw [hInv.acqVis]
    · intro y m2 hy hcl
      simp only [stVisitMark]
      rcases List.mem_append.mp hy with hy | hy
      · exact hInv.logClone y m2 hy hcl
      · rw [List.mem_singleton.mp hy] at hcl
        have h5 := (processRef_fail env x m2 hcl).symm.trans hp
        simp at h5
  | inspected subs ws =>
    rw [scanBody_inspected env x tv st subs ws hp] at hb
    cases hb
    have hkids := kidsOf_eq env x subs ws hp
    have hws := warnsOf_eq env x subs ws hp
    have hsubsP : ∀ y ∈ subs, ∃ s, parse_uses_value s = .ok y := by
      intro y hy
      exact kidsOf_sound env x y (hkids ▸ hy)
    have hfrozen := foldl_addChild_frozen x subs
      { stVisitMark x tv st with
        warns := alistUpdate (stVisitMark x tv st).warns x (fun l => l ++ ws) }
    have hinvs := foldl_addChild_invs x subs
      { stVisitMark x tv st with
        warns := alistUpdate (stVisitMark x tv st).warns x (fun l => l ++ ws) }
      (by simp only [stVisitMark]; exact hndtv)
      (by simp only [stVisitMark]; exact hInv.ndAll)
      (by simp only [stVisitMark]; exact fun y hy => hInv.tvAll y (htv_sub y hy))
    have hallm := foldl_addChild_all_mem x subs
      { stVisitMark x tv st with
        warns := alistUpdate (stVisitMark x tv st).warns x (fun l => l ++ ws) }
    have htvm := foldl_addChild_tv_mem x subs
      { stVisitMark x tv st with
        warns := alistUpdate (stVisitMark x tv st).warns x (fun l => l ++ ws) }
    refine { ndTv := ?_, ndVis := ?_, ndAll := ?_, tvAll := ?_, visAll := ?_, allSplit := ?_,
             tvVis := ?_, seedAll := ?_, allReach := ?_, visKids := ?_, allOk := ?_,
             graphChar := ?_, warnsChar := ?_, acqVis := ?_, logClone := ?_ }
    · exact hinvs.1
    · rw [hfrozen.1]
      simp only [stVisitMark]
      exact nodup_concat_of _ _ hInv.ndVis hx
    · exact hinvs.2.1
    · exact hinvs.2.2
    · intro y hy
      rw [hfrozen.1] at hy
      rw [hallm y]
      simp only [stVisitMark] at hy ⊢
      exact Or.inl (hvisAll1 y hy)
    · intro y hy
      rw [hallm y] at hy
      rw [hfrozen.1, htvm y]
      simp only [stVisitMark] at hy ⊢
      rcases hy with hy | hy
      · rcases hInv.allSplit y hy with hy2 | hy2
        · exact Or.inl (List.mem_append_left _ hy2)
        · rcases List.mem_cons.mp (hperm.mem_iff.mp hy2) with rfl | hy3
          · exact Or.inl (List.mem_append_right _ (List.mem_singleton_self _))
          · exact Or.inr (Or.inl hy3)
      · by_cases hyA : y ∈ st.allDisc
        · rcases hInv.allSplit y hyA with hy2 | hy2
          · exact Or.inl (List.mem_append_left _ hy2)
          · rcases List.mem_cons.mp (hperm.mem_iff.mp hy2) with rfl | hy3
            · exact Or.inl (List.mem_append_right _ (List.mem_singleton_self _))
            · exact Or.inr (Or.inl hy3)
        · exact Or.inr (Or.inr ⟨hy, hyA⟩)
    · intro y hy
      rw [htvm y] at hy
      rw [hfrozen.1]
      simp only [stVisitMark] at hy ⊢
      intro hc
      rcases hy with hy | ⟨hy1, hy2⟩
      · exact htvVis1 y hy hc
      · rcases List.mem_append.mp hc with hc | hc
        · exact hy2 (hInv.visAll y hc)
        · rw [List.mem_singleton.mp hc] at hy2
          exact hy2 hxAll
    · intro y hy
      rw [hallm y]
      simp only [stVisitMark]
      exact Or.inl (hInv.seedAll y hy)
    · intro y hy
      rw [hallm y] at hy
      simp only [stVisitMark] at hy
      rcases hy with hy | hy
      · exact hInv.allReach y hy
      · exact Reaches.step x y (hInv.allReach x hxAll) (hkids ▸ hy)
    · intro y hy z hz
      rw [hfrozen.1] at hy
      rw [hallm z]
      simp only [stVisitMark] at hy ⊢
      rcases List.mem_append.mp hy with hy | hy
      · exact Or.inl (hInv.visKids y hy z hz)
      · rw [List.mem_singleton.mp hy] at hz
        rw [hkids] at hz
        exact Or.inr hz
    · intro y hy
      rw [hallm y] at hy
      simp only [stVisitMark] at hy
      rcases hy with hy | hy
      · exact hInv.allOk y hy
      · obtain ⟨s, hs⟩ := hsubsP y hy
        exact (parse_refOk s y hs).1
    · intro k
      by_cases hk : k = x
      · subst hk
        rw [foldl_addChild_graph_x, hfrozen.1]
        simp only [stVisitMark]
        rw [hg1 k, if_pos rfl, graphSpec_concat env seed st.visited k k hxM, if_pos rfl]
        simp [childListOf, hkids]
      · rw [foldl_addChild_graph_ne x k hk, hfrozen.1]
        simp only [stVisitMark]
        rw [hg1 k, if_neg hk, graphSpec_concat env seed st.visited x k hxM, if_neg hk]
    · intro k
      rw [hfrozen.2.2.2, hfrozen.1]
      simp only [stVisitMark]
      rw [alookup_update]
      by_cases hk : k = x
      · subst hk
        rw [if_pos rfl, hw1 k, if_pos rfl, warnsSpec_concat env st.visited k k hxM, if_pos rfl]
        simp [hws]
      · rw [if_neg hk, hw1 k, if_neg hk, warnsSpec_concat env st.visited x k hxM, if_neg hk]
    · rw [hfrozen.2.1, hfrozen.1]
      simp only [stVisitMark]
      rw [hInv.acqVis]
    · intro y m2 hy hcl
      rw [hfrozen.2.2.1]
      rw [hfrozen.1] at hy
      simp only [stVisitMark] at hy ⊢
      rcases List.mem_append.mp hy with hy | hy
      · exact hInv.logClone y m2 hy hcl
      · rw [List.mem_singleton.mp hy] at hcl
        have h5 := (processRef_fail env x m2 hcl).symm.trans hp
        simp at h5

theorem scanLoop_inv (env : Env) (oracle : Nat → Nat) (seed : List Ref) :
    ∀ (fuel n : Nat) (st r : ScanState), LoopInv env seed st →
    scanLoop env oracle fuel n st = some (.ok r) → LoopInv env seed r ∧ r.toVisit = [] := by
  intro fuel
  induction fuel with
  | zero =>
    intro n st r hInv h
    by_cases hnil : st.toVisit = []
    · rw [scanLoop_nil env oracle 0 n st hnil] at h
      cases h
      exact ⟨hInv, hnil⟩
    · rw [scanLoop_zero_cons env oracle n st hnil] at h
      simp at h
  | succ fuel ih =>
    intro n st r hInv h
    by_cases hnil : st.toVisit = []
    · rw [scanLoop_nil env oracle _ n st hnil] at h
      cases h
      exact ⟨hInv, hnil⟩
    · have hpos : 0 < st.toVisit.length := List.length_pos.mpr hnil
      have hilt : oracle n % st.toVisit.length < st.toVisit.length := Nat.mod_lt _ hpos
      have hperm := popAt_perm st.toVisit (oracle n % st.toVisit.length) hilt
      have hxtv : (popAt st.toVisit (oracle n % st.toVisit.length)).1 ∈ st.toVisit :=
        hperm.mem_iff.mpr (List.mem_cons_self _ _)
      by_cases hx : (popAt st.toVisit (oracle n % st.toVisit.length)).1 ∈ st.visited
      · exact absurd hx (hInv.tvVis _ hxtv)
      · cases hb : scanBody env (popAt st.toVisit (oracle n % st.toVisit.length)).1
            (popAt st.toVisit (oracle n % st.toVisit.length)).2 st with
        | error e =>
          rw [scanLoop_succ_raise env oracle fuel n st e hnil hx hb] at h
          simp at h
        | ok st2 =>
          rw [scanLoop_succ_new env oracle fuel n st st2 hnil hx hb] at h
          exact ih (n + 1) st2 r (scanBody_inv env seed st st2 _ _ hInv hperm hx hb) h

theorem initState_inv (env : Env) (seed : List Ref)
    (hnd : seed.Nodup) (hsd : ∀ r ∈ seed, ∃ s, parse_uses_value s = .ok r) :
    LoopInv env seed (initState seed) := by
  refine { ndTv := ?_, ndVis := ?_, ndAll := ?_, tvAll := ?_, visAll := ?_, allSplit := ?_,
           tvVis := ?_, seedAll := ?_, allReach := ?_, visKids := ?_, allOk := ?_,
           graphChar := ?_, warnsChar := ?_, acqVis := ?_, logClone := ?_ }
  · exact hnd
  · exact List.nodup_nil
  · exact hnd
  · exact fun y hy => hy
  · intro y hy
    simp [initState] at hy
  · exact fun y hy => Or.inr hy
  · intro y hy hc
    simp [initState] at hc
  · exact fun y hy => hy
  · exact fun y hy => Reaches.base y hy
  · intro y hy
    simp [initState] at hy
  · intro y hy
    obtain ⟨s, hs⟩ := hsd y hy
    exact (parse_refOk s y hs).1
  · intro k
    simp only [initState]
    unfold graphSpec
    by_cases hk : k = MAIN_KEY
    · subst hk
      simp [alookup]
    · rw [if_neg hk]
      have h2 : ¬ MAIN_KEY = k := fun hc => hk hc.symm
      simp [alookup, h2, hk]
  · intro k
    simp only [initState]
    unfold warnsSpec
    by_cases hk : k = MAIN_KEY
    · subst hk
      simp [alookup]
    · rw [if_neg hk]
      have h2 : ¬ MAIN_KEY = k := fun hc => hk hc.symm
      simp [alookup, h2, hk]
  · rfl
  · intro y m hy hcl
    simp [initState] at hy

theorem rda_err (wfs : List (Except Str Yaml)) (env : Env) (oracle : Nat → Nat) (e : Str)
    (hs : get_actions_from_workflows wfs = .error e) :
    recursively_discover_actions wfs env oracle = some (.error e) := by
  unfold recursively_discover_actions
  rw [hs]

theorem rda_seed (wfs : List (Except Str Yaml)) (env : Env) (oracle : Nat → Nat)
    (seed : List Ref) (hs : get_actions_from_workflows wfs = .ok seed) :
    recursively_discover_actions wfs env oracle =
      scanLoop env oracle (initFuel env seed) 0 (initState seed) := by
  unfold recursively_discover_actions
  rw [hs]

theorem rda_ok_spec (wfs : List (Except Str Yaml)) (env : Env) (oracle : Nat → Nat)
    (r : ScanState) (h : recursively_discover_actions wfs env oracle = some (.ok r)) :
    ∃ seed, get_actions_from_workflows wfs = .ok seed ∧ LoopInv env seed r ∧ r.toVisit = [] := by
  cases hs : get_actions_from_workflows wfs with
  | error e =>
    rw [rda_err wfs env oracle e hs] at h
    simp at h
  | ok seed =>
    rw [rda_seed wfs env oracle seed hs] at h
    obtain ⟨hnd, hsd⟩ := seed_sound wfs seed hs
    exact ⟨seed, rfl, scanLoop_inv env oracle seed _ 0 _ r (initState_inv env seed hnd hsd) h⟩

theorem final_mem_iff (env : Env) (seed : List Ref) (r : ScanState)
    (hInv : LoopInv env seed r) (hnil : r.toVisit = []) :
    ∀ x, (x ∈ r.allDisc ↔ Reaches env seed x) ∧ (x ∈ r.visited ↔ Reaches env seed x) := by
  have hva : ∀ x, x ∈ r.allDisc ↔ x ∈ r.visited := by
    intro x
    constructor
    · intro h
      rcases hInv.allSplit x h with h2 | h2
      · exact h2
      · rw [hnil] at h2
        simp at h2
    · exact hInv.visAll x
  have hreach : ∀ x, Reaches env seed x → x ∈ r.allDisc := by
    intro x hx
    induction hx with
    | base y hy => exact hInv.seedAll y hy
    | step y z hy hz ih => exact hInv.visKids y ((hva y).mp ih) z hz
  intro x
  refine ⟨⟨hInv.allReach x, hreach x⟩, ?_, ?_⟩
  · exact fun h => hInv.allReach x (hInv.visAll x h)
  · exact fun h => (hva x).mp (hreach x h)

theorem rda_ne_none : ∀ (wfs : List (Except Str Yaml)) (env : Env) (oracle : Nat → Nat),
    recursively_discover_actions wfs env oracle ≠ none := by
  intro wfs env oracle
  cases hs : get_actions_from_workflows wfs with
  | error e =>
    rw [rda_err wfs env oracle e hs]
    simp
  | ok seed =>
    rw [rda_seed wfs env oracle seed hs]
    apply scanLoop_terminates
    unfold potential initFuel initState
    simp

/-- Claim C1: over the finite reference universe of an environment, the drain
loop always terminates (never exhausts its computed fuel), every completed run
acquires and inspects each distinct reference at most once, and on the cyclic
fixture (A's composite steps reference B and B's reference A) the run
completes with both A and B discovered and the edge in each direction. -/
theorem claim_C1_termination_at_most_once :
    (∀ (wfs : List (Except Str Yaml)) (env : Env) (oracle : Nat → Nat),
        recursively_discover_actions wfs env oracle ≠ none)
  ∧ (∀ (wfs : List (Except Str Yaml)) (env : Env) (oracle : Nat → Nat) (r : ScanState),
        recursively_discover_actions wfs env oracle = some (.ok r) → r.acquired.Nodup)
  ∧ alookup (runStateOf (recursively_discover_actions wfsC envC orc0)).graph refA = some [refB]
  ∧ alookup (runStateOf (recursively_discover_actions wfsC envC orc0)).graph refB = some [refA]
  ∧ refA ∈ (runStateOf (recursively_discover_actions wfsC envC orc0)).allDisc
  ∧ refB ∈ (runStateOf (recursively_discover_actions wfsC envC orc0)).allDisc := by
  refine ⟨rda_ne_none, ?_, by decide, by decide, by decide, by decide⟩
  intro wfs env oracle r h
  obtain ⟨seed, _, hInv, _⟩ := rda_ok_spec wfs env oracle r h
  rw [hInv.acqVis]
  exact hInv.ndVis

/-- Claim C1 witness: the cyclic fixture's completed run acquires each
reference once. -/
theorem claim_C1_witness :
    (runStateOf (recursively_discover_actions wfsC envC orc0)).acquired.Nodup :=
  claim_C1_termination_at_most_once.2.1 wfsC envC orc0
    (runStateOf (recursively_discover_actions wfsC envC orc0)) rfl

/-- Claim C2 (amended): when acquisition of a discovered reference fails, the
warning describing the failure goes to the console log only; the reference's
WarningsMap entry stays empty, its child set is empty, and the drain loop
continues to completion. -/
theorem claim_C2_clone_failure_amended :
    ∀ (wfs : List (Except Str Yaml)) (env : Env) (oracle : Nat → Nat) (r : ScanState)
      (x : Ref) (m : Str),
    recursively_discover_actions wfs env oracle = some (.ok r) →
    x ∈ r.visited → envClone env x = .error m →
    cloneWarnMsg x m ∈ r.log ∧ alookup r.warns x = some [] ∧ alookup r.graph x = some [] := by
  intro wfs env oracle r x m h hx hcl
  obtain ⟨seed, hs, hInv, hnil⟩ := rda_ok_spec wfs env oracle r h
  have hxM : x ≠ MAIN_KEY := fun he => MAIN_not_refOk (he ▸ hInv.allOk x (hInv.visAll x hx))
  have hfail := processRef_fail env x m hcl
  obtain ⟨hk0, hw0⟩ := kidsOf_fail env x m hfail
  refine ⟨hInv.logClone x m hx hcl, ?_, ?_⟩
  · rw [hInv.warnsChar x]
    unfold warnsSpec
    rw [if_neg hxM, if_pos hx, hw0]
  · rw [hInv.graphChar x]
    unfold graphSpec
    rw [if_neg hxM, if_pos hx]
    simp [childListOf, hk0]

/-- Claim C2 counterexample: in the fixture where the single seeded reference
fails to clone, the completed run leaves that reference's WarningsMap entry
empty, refuting that the failure warning is recorded in the WarningsMap. -/
theorem claim_C2_counterexample :
    envClone envF refA = .error (strL ("boom"))
  ∧ (runStateOf (recursively_discover_actions wfsC envF orc0)).visited = [refA]
  ∧ alookup (runStateOf (recursively_discover_actions wfsC envF orc0)).warns refA = some []
  ∧ recursively_discover_actions wfsC envF orc0 =
      some (.ok (runStateOf (recursively_discover_actions wfsC envF orc0))) := by
  exact ⟨rfl, rfl, rfl, rfl⟩

/-- Claim C2 witness for the amended statement, at the clone-failure fixture. -/
theorem claim_C2_witness :
    cloneWarnMsg refA (strL ("boom")) ∈
      (runStateOf (recursively_discover_actions wfsC envF orc0)).log ∧
    alookup (runStateOf (recursively_discover_actions wfsC envF orc0)).warns refA = some [] ∧
    alookup (runStateOf (recursively_discover_actions wfsC envF orc0)).graph refA = some [] :=
  claim_C2_clone_failure_amended wfsC envF orc0
    (runStateOf (recursively_discover_actions wfsC envF orc0)) refA (strL ("boom"))
    rfl (by decide) rfl

/-- Claim C3: the inspector raises (an uncaught AttributeError) on a composite
`runs.steps` sequence whose element is not a mapping, because, unlike the
workflow scanner's walk of job steps, its walk calls `step.get` without a
mapping guard; the workflow scanner on the same shaped step returns normally. -/
theorem claim_C3_composite_step_raises :
    get_actions_and_docker_warnings_from_action_file actionYmlS (.ok c3doc) none
      = .error attrErrMsg
  ∧ get_actions_from_workflows [.ok c3wf] = .ok [] := ⟨rfl, rfl⟩

/-- Claim C5: at the end of every completed traversal run the DependencyGraph
and the WarningsMap have exactly the same key set. -/
theorem claim_C5_key_sets_agree :
    ∀ (wfs : List (Except Str Yaml)) (env : Env) (oracle : Nat → Nat) (r : ScanState),
    recursively_discover_actions wfs env oracle = some (.ok r) →
    ∀ k, (alookup r.graph k).isSome = true ↔ (alookup r.warns k).isSome = true := by
  intro wfs env oracle r h k
  obtain ⟨seed, hs, hInv, hnil⟩ := rda_ok_spec wfs env oracle r h
  rw [hInv.graphChar k, hInv.warnsChar k]
  unfold graphSpec warnsSpec
  by_cases hk : k = MAIN_KEY
  · simp [hk]
  · by_cases hv : k ∈ r.visited <;> simp [hk, hv]

/-- Claim C5 witness at the cyclic fixture and the sentinel root key. -/
theorem claim_C5_witness :
    (alookup (runStateOf (recursively_discover_actions wfsC envC orc0)).graph MAIN_KEY).isSome
      = true ↔
    (alookup (runStateOf (recursively_discover_actions wfsC envC orc0)).warns MAIN_KEY).isSome
      = true :=
  claim_C5_key_sets_agree wfsC envC orc0
    (runStateOf (recursively_discover_actions wfsC envC orc0)) rfl MAIN_KEY

/-- Claim C8: two completed runs over the same inputs that differ only in the
worklist pop order agree on the discovered reference set, on the dependency
graph (keys and edges), and on the warnings stored at every key. -/
theorem claim_C8_order_independent :
    ∀ (wfs : List (Except Str Yaml)) (env : Env) (o1 o2 : Nat → Nat) (r1 r2 : ScanState),
    recursively_discover_actions wfs env o1 = some (.ok r1) →
    recursively_discover_actions wfs env o2 = some (.ok r2) →
    (∀ k, k ∈ r1.allDisc ↔ k ∈ r2.allDisc)
  ∧ (∀ k, alookup r1.graph k = alookup r2.graph k)
  ∧ (∀ k, alookup r1.warns k = alookup r2.warns k) := by
  intro wfs env o1 o2 r1 r2 h1 h2
  obtain ⟨seed1, hs1, hInv1, hnil1⟩ := rda_ok_spec wfs env o1 r1 h1
  obtain ⟨seed2, hs2, hInv2, hnil2⟩ := rda_ok_spec wfs env o2 r2 h2
  have hseed : seed1 = seed2 := by
    rw [hs1] at hs2
    cases hs2
    rfl
  subst hseed
  have hm1 := final_mem_iff env seed1 r1 hInv1 hnil1
  have hm2 := final_mem_iff env seed1 r2 hInv2 hnil2
  have hvv : ∀ k, k ∈ r1.visited ↔ k ∈ r2.visited := by
    intro k
    rw [(hm1 k).2, (hm2 k).2]
  refine ⟨?_, ?_, ?_⟩
  · intro k
    rw [(hm1 k).1, (hm2 k).1]
  · intro k
    rw [hInv1.graphChar k, hInv2.graphChar k]
    unfold graphSpec
    by_cases hk : k = MAIN_KEY
    · simp [hk]
    · rw [if_neg hk, if_neg hk]
      by_cases hv : k ∈ r1.visited
      · rw [if_pos hv, if_pos ((hvv k).mp hv)]
      · rw [if_neg hv, if_neg (fun hc => hv ((hvv k).mpr hc))]
  · intro k
    rw [hInv1.warnsChar k, hInv2.warnsChar k]
    unfold warnsSpec
    by_cases hk : k = MAIN_KEY
    · simp [hk]
    · rw [if_neg hk, if_neg hk]
      by_cases hv : k ∈ r1.visited
      · rw [if_pos hv, if_pos ((hvv k).mp hv)]
      · rw [if_neg hv, if_neg (fun hc => hv ((hvv k).mpr hc))]

/-- Claim C8 witness: the two-seed fixture run with two different pop orders
stores the same children under action A. -/
theorem claim_C8_witness :
    alookup (runStateOf (recursively_discover_actions wfsD envD orc0)).graph refB =
    alookup (runStateOf (recursively_discover_actions wfsD envD orc1)).graph refB :=
  (claim_C8_order_independent wfsD envD orc0 orc1
    (runStateOf (recursively_discover_actions wfsD envD orc0))
    (runStateOf (recursively_discover_actions wfsD envD orc1)) rfl rfl).2.1 refB

/-- Claim C9: every parsed reference has non-empty owner, name and version and
so can never equal the sentinel root key, whose name component is empty; the
sentinel is never discovered (hence never enqueued) and never acquired or
inspected in any completed run. -/
theorem claim_C9_sentinel_disjoint :
    (∀ (s : Str) (r : Ref), parse_uses_value s = .ok r → refOk r ∧ r ≠ MAIN_KEY)
  ∧ MAIN_KEY.2.1 = []
  ∧ (∀ (wfs : List (Except Str Yaml)) (env : Env) (oracle : Nat → Nat) (r : ScanState),
      recursively_discover_actions wfs env oracle = some (.ok r) →
      MAIN_KEY ∉ r.allDisc ∧ MAIN_KEY ∉ r.acquired) := by
  refine ⟨parse_refOk, rfl, ?_⟩
  intro wfs env oracle r h
  obtain ⟨seed, hs, hInv, hnil⟩ := rda_ok_spec wfs env oracle r h
  have hall : MAIN_KEY ∉ r.allDisc := fun hc => MAIN_not_refOk (hInv.allOk _ hc)
  refine ⟨hall, ?_⟩
  rw [hInv.acqVis]
  exact fun hc => hall (hInv.visAll _ hc)

/-- Claim C9 witness at the cyclic fixture. -/
theorem claim_C9_witness :
    MAIN_KEY ∉ (runStateOf (recursively_discover_actions wfsC envC orc0)).allDisc ∧
    MAIN_KEY ∉ (runStateOf (recursively_discover_actions wfsC envC orc0)).acquired :=
  claim_C9_sentinel_disjoint.2.2 wfsC envC orc0
    (runStateOf (recursively_discover_actions wfsC envC orc0)) rfl

theorem claimPinned_hasSubstr (r : Str) (h : ClaimDigestPinned r) : hasSubstr r shaS = true := by
  obtain ⟨t, h2, heq, _, _⟩ := h
  rw [heq]
  exact hasSubstr_of_parts t shaS h2

/-- Claim C4 (amended): for strings `owner/name@version` with owner non-empty
and slash-free, name non-empty and at-sign-free, and version non-empty and
newline-free, parse succeeds with exactly those groups; parse also accepts one
trailing newline after such a string but drops it; every other string is
rejected.  The round trip through format restores the string whenever the
owner is not the sentinel owner literal. -/
theorem claim_C4_roundtrip_amended :
    (∀ s : Str, (∃ r, parse_uses_value s = .ok r) ↔
      (C4ShapeStrict s ∨ ∃ t, C4ShapeStrict t ∧ s = t ++ ['\n']))
  ∧ (∀ o n v : Str, o ≠ [] → '/' ∉ o → n ≠ [] → '@' ∉ n → v ≠ [] → '\n' ∉ v →
      parse_uses_value (o ++ '/' :: (n ++ '@' :: v)) = .ok (o, n, v)
      ∧ parse_uses_value (o ++ '/' :: (n ++ '@' :: (v ++ ['\n']))) = .ok (o, n, v)
      ∧ (o ≠ mainOwnerS → key_to_str (o, n, v) = o ++ '/' :: (n ++ '@' :: v))) := by
  constructor
  · intro s
    constructor
    · rintro ⟨⟨o, n, v⟩, hr⟩
      obtain ⟨ho, hos, hn, hna, hv, hnl, hsplit⟩ := parse_sound s o n v hr
      rcases hsplit with hs | hs
      · exact Or.inl ⟨o, n, v, hs, ho, hos, hn, hna, hv, hnl⟩
      · refine Or.inr ⟨o ++ '/' :: (n ++ '@' :: v),
          ⟨o, n, v, rfl, ho, hos, hn, hna, hv, hnl⟩, ?_⟩
        rw [hs]
        simp
    · rintro (⟨o, n, v, rfl, ho, hos, hn, hna, hv, hnl⟩ |
        ⟨t, ⟨o, n, v, rfl, ho, hos, hn, hna, hv, hnl⟩, rfl⟩)
      · exact ⟨(o, n, v), parse_complete_pos o n v v ho hos hn hna
          (matchVersionGroup_plain v hv hnl)⟩
      · have hfmt : (o ++ '/' :: (n ++ '@' :: v)) ++ ['\n'] =
            o ++ '/' :: (n ++ '@' :: (v ++ ['\n'])) := by simp
        rw [hfmt]
        exact ⟨(o, n, v), parse_complete_pos o n (v ++ ['\n']) v ho hos hn hna
          (matchVersionGroup_nl v hv hnl)⟩
  · intro o n v ho hos hn hna hv hnl
    refine ⟨parse_complete_pos o n v v ho hos hn hna (matchVersionGroup_plain v hv hnl),
            parse_complete_pos o n (v ++ ['\n']) v ho hos hn hna (matchVersionGroup_nl v hv hnl),
            ?_⟩
    intro hoM
    simp [key_to_str, hoM]

/-- Claim C4 witness at a concrete reference string. -/
theorem claim_C4_witness :
    parse_uses_value (strL ("a") ++ '/' :: (strL ("b") ++ '@' :: strL ("c")))
      = .ok (strL ("a"), strL ("b"), strL ("c")) ∧
    key_to_str (strL ("a"), strL ("b"), strL ("c"))
      = strL ("a") ++ '/' :: (strL ("b") ++ '@' :: strL ("c")) :=
  ⟨(claim_C4_roundtrip_amended.2 (strL ("a")) (strL ("b")) (strL ("c"))
      (by decide) (by decide) (by decide) (by decide) (by decide) (by decide)).1,
   (claim_C4_roundtrip_amended.2 (strL ("a")) (strL ("b")) (strL ("c"))
      (by decide) (by decide) (by decide) (by decide) (by decide) (by decide)).2.2 (by decide)⟩

/-- Claim C4 counterexample: the string `a/b@c` followed by a newline has the
claimed `owner/name@version` shape (version is the non-empty remainder with a
trailing newline), parse accepts it, but format of the parse drops the
newline, so `format(parse(s)) = s` fails. -/
theorem claim_C4_counterexample :
    C4Shape ce4s
  ∧ Except.map key_to_str (parse_uses_value ce4s) = .ok (strL ("a/b@c"))
  ∧ strL ("a/b@c") ≠ ce4s := by
  refine ⟨⟨strL ("a"), strL ("b"), strL ("c\n"), ?_, ?_, ?_, ?_, ?_, ?_⟩, rfl, by decide⟩
  · decide
  · decide
  · decide
  · decide
  · decide
  · decide

/-- Claim C6 (amended): for a remote-prefixed image string of a container
action, the inspector emits no warning when the reference (after the prefix)
contains the `@sha256:` substring — in particular whenever it carries a true
content-digest suffix — and otherwise emits exactly one unpinned-image warning
containing the image string verbatim. -/
theorem claim_C6_image_pinning_amended :
    ∀ (name : Str) (dm rm : List (Str × Yaml)) (image : Str) (df : Option (List Str)),
    (alookup dm runsK).getD (Yaml.map []) = Yaml.map rm →
    alookup rm usingK = some (Yaml.str dockerS) →
    alookup rm imageK = some (Yaml.str image) →
    strStarts image dockerPrefS = true →
    (ClaimDigestPinned (image.drop dockerPrefS.length) →
       get_actions_and_docker_warnings_from_action_file name (.ok (Yaml.map dm)) df
         = .ok ([], []))
  ∧ (hasSubstr (image.drop dockerPrefS.length) shaS = true →
       get_actions_and_docker_warnings_from_action_file name (.ok (Yaml.map dm)) df
         = .ok ([], []))
  ∧ (hasSubstr (image.drop dockerPrefS.length) shaS = false →
       get_actions_and_docker_warnings_from_action_file name (.ok (Yaml.map dm)) df
         = .ok ([], [unpinnedImgMsg image])
       ∧ image <:+: unpinnedImgMsg image) := by
  intro name dm rm image df hr hu hi hpre
  have hred : get_actions_and_docker_warnings_from_action_file name (.ok (Yaml.map dm)) df
      = .ok ([], imageWarn image df) := by
    simp only [get_actions_and_docker_warnings_from_action_file]
    rw [inspectorDoc_map dm df rm hr, inspectorRuns_str rm df _ hu]
    unfold inspectorUsing
    rw [if_pos rfl, inspectorImage_str rm df image hi]
  have hunp : is_unpinned_docker_image image
      = !(hasSubstr (image.drop dockerPrefS.length) shaS) := by
    unfold is_unpinned_docker_image
    rw [if_pos hpre]
  have hcase : ∀ b : Bool, hasSubstr (image.drop dockerPrefS.length) shaS = b →
      imageWarn image df = (if b then [] else [unpinnedImgMsg image]) := by
    intro b hb
    unfold imageWarn
    rw [if_pos hpre, hunp, hb]
    cases b <;> simp
  refine ⟨?_, ?_, ?_⟩
  · intro hpin
    rw [hred, hcase true (claimPinned_hasSubstr _ hpin)]
    rfl
  · intro hb
    rw [hred, hcase true hb]
    rfl
  · intro hb
    refine ⟨?_, ?_⟩
    · rw [hred, hcase false hb]
      rfl
    · exact ⟨("Unpinned Docker image => ").data, [], by simp [unpinnedImgMsg]⟩

/-- Claim C6 witness: the unpinned image `docker://alpine:3.18` yields exactly
one warning containing the image verbatim. -/
theorem claim_C6_witness :
    get_actions_and_docker_warnings_from_action_file actionYmlS
      (.ok (dockerDoc ("docker://alpine:3.18"))) none
      = .ok ([], [unpinnedImgMsg (strL ("docker://alpine:3.18"))])
  ∧ strL ("docker://alpine:3.18") <:+: unpinnedImgMsg (strL ("docker://alpine:3.18")) :=
  (claim_C6_image_pinning_amended actionYmlS
    [(runsK, Yaml.map [(usingK, Yaml.str dockerS), (imageK, Yaml.str (strL ("docker://alpine:3.18")))])]
    [(usingK, Yaml.str dockerS), (imageK, Yaml.str (strL ("docker://alpine:3.18")))]
    (strL ("docker://alpine:3.18")) none rfl rfl rfl rfl).2.2 rfl

/-- Claim C6 counterexample: `docker://a@sha256:zz` lacks a 64-hex-character
content-digest suffix yet the inspector emits no unpinned-image warning,
because the code only tests for the `@sha256:` substring. -/
theorem claim_C6_counterexample :
    strStarts ce6img dockerPrefS = true
  ∧ ¬ ClaimDigestPinned (ce6img.drop dockerPrefS.length)
  ∧ get_actions_and_docker_warnings_from_action_file actionYmlS (.ok ce6doc) none
      = .ok ([], []) := by
  refine ⟨rfl, ?_, rfl⟩
  rintro ⟨t, h2, heq, hlen, _⟩
  have hL := congrArg List.length heq
  simp only [List.length_append] at hL
  rw [hlen] at hL
  have h1 : (List.drop dockerPrefS.length ce6img).length = 11 := rfl
  have h8 : shaS.length = 8 := rfl
  omega

theorem dockerfileLineWarn_eq (line : Str) :
    dockerfileLineWarn line =
      (if offendingLineB line then some (unpinnedFromMsg (dockerfileFromArg line)) else none) := by
  unfold dockerfileLineWarn offendingLineB isFromLineB dockerfileFromArg
  by_cases h1 : strStarts ((pyStrip line).map Char.toUpper) fromS = true
  · by_cases h2 : hasSubstr (pyStrip ((pyStrip line).drop 5)) shaS = true
    · simp [h1, h2]
    · simp [h1, h2]
  · simp [h1]

theorem analyze_dockerfile_eq (lines : List Str) :
    analyze_dockerfile lines =
      (lines.filter offendingLineB).map (fun l => unpinnedFromMsg (dockerfileFromArg l)) := by
  unfold analyze_dockerfile
  induction lines with
  | nil => rfl
  | cons l rest ih =>
    rw [List.filterMap_cons, dockerfileLineWarn_eq l]
    by_cases h : offendingLineB l = true
    · simp only [if_pos h, List.filter_cons, h]
      simp [ih]
    · simp only [if_neg h]
      rw [List.filter_cons]
      simp only [h, if_false, Bool.false_eq_true]
      exact ih

/-- Claim C7 (amended): a Dockerfile all of whose recognised base-image lines
(stripped line starting case-insensitively with `FROM` and a space) carry a
content-digest suffix — or merely the `@sha256:` substring — yields zero
warnings; the warning list has exactly one entry per base-image line whose
extracted argument lacks the `@sha256:` substring, quoting the argument
verbatim; `FROM ubuntu:20.04` yields exactly one warning containing the
literal `ubuntu:20.04`. -/
theorem claim_C7_dockerfile_pinning_amended :
    (∀ lines : List Str, (∀ line ∈ lines, isFromLineB line = true →
        ClaimDigestPinned (dockerfileFromArg line)) → analyze_dockerfile lines = [])
  ∧ (∀ lines : List Str, (∀ line ∈ lines, isFromLineB line = true →
        hasSubstr (dockerfileFromArg line) shaS = true) → analyze_dockerfile lines = [])
  ∧ (∀ lines : List Str, analyze_dockerfile lines =
        (lines.filter offendingLineB).map (fun l => unpinnedFromMsg (dockerfileFromArg l)))
  ∧ (∀ line : Str, dockerfileFromArg line <:+: unpinnedFromMsg (dockerfileFromArg line))
  ∧ analyze_dockerfile [ubuntuLine] = [unpinnedFromMsg (strL ("ubuntu:20.04"))]
  ∧ strL ("ubuntu:20.04") <:+: unpinnedFromMsg (strL ("ubuntu:20.04")) := by
  have hsub : ∀ lines : List Str, (∀ line ∈ lines, isFromLineB line = true →
      hasSubstr (dockerfileFromArg line) shaS = true) → analyze_dockerfile lines = [] := by
    intro lines hall
    rw [analyze_dockerfile_eq]
    have hfil : lines.filter offendingLineB = [] := by
      rw [List.filter_eq_nil_iff]
      intro a ha hc
      simp only [offendingLineB, Bool.and_eq_true, Bool.not_eq_true'] at hc
      rw [hall a ha hc.1] at hc
      simp at hc
    rw [hfil]
    rfl
  refine ⟨?_, hsub, analyze_dockerfile_eq, ?_, rfl, ?_⟩
  · intro lines hall
    exact hsub lines (fun line hl hf => claimPinned_hasSubstr _ (hall line hl hf))
  · intro line
    exact ⟨("Unpinned Docker FROM => ").data ++ [sqC], [sqC], by simp [unpinnedFromMsg]⟩
  · exact ⟨("Unpinned Docker FROM => ").data ++ [sqC], [sqC], by simp [unpinnedFromMsg]⟩

/-- Claim C7 witness: a Dockerfile whose single base-image line carries the
`@sha256:` substring produces no warnings. -/
theorem claim_C7_witness :
    analyze_dockerfile [strL ("FROM img@sha256:zz")] = [] :=
  claim_C7_dockerfile_pinning_amended.2.1 [strL ("FROM img@sha256:zz")]
    (fun line hl _ => by
      rw [List.mem_singleton.mp hl]
      decide)

/-- Claim C7 counterexample: `FROM img@sha256:zz` is a base-image line whose
argument lacks a 64-hex content-digest suffix, yet the scan yields zero
warnings instead of the claimed one, because the code only tests for the
`@sha256:` substring. -/
theorem claim_C7_counterexample :
    isFromLineB ce7line = true
  ∧ ¬ ClaimDigestPinned (dockerfileFromArg ce7line)
  ∧ analyze_dockerfile [ce7line] = [] := by
  refine ⟨rfl, ?_, rfl⟩
  rintro ⟨t, h2, heq, hlen, _⟩
  have hL := congrArg List.length heq
  simp only [List.length_append] at hL
  rw [hlen] at hL
  have h1 : (dockerfileFromArg ce7line).length = 13 := rfl
  have h8 : shaS.length = 8 := rfl
  omega

/-- Claim C10: a container action whose `image` field is not a string, or is a
string that neither starts with the remote `docker://` prefix nor equals
`Dockerfile` exactly (for example `./Dockerfile`), contributes no children and
no warnings — the value is silently ignored. -/
theorem claim_C10_image_ignored :
    ∀ (name : Str) (dm rm : List (Str × Yaml)) (y : Yaml) (df : Option (List Str)),
    (alookup dm runsK).getD (Yaml.map []) = Yaml.map rm →
    alookup rm usingK = some (Yaml.str dockerS) →
    alookup rm imageK = some y →
    ((∀ s : Str, y ≠ Yaml.str s) →
       get_actions_and_docker_warnings_from_action_file name (.ok (Yaml.map dm)) df
         = .ok ([], []))
  ∧ (∀ s : Str, y = Yaml.str s → strStarts s dockerPrefS = false → s ≠ dockerfileS →
       get_actions_and_docker_warnings_from_action_file name (.ok (Yaml.map dm)) df
         = .ok ([], [])) := by
  intro name dm rm y df hr hu hi
  have hred : get_actions_and_docker_warnings_from_action_file name (.ok (Yaml.map dm)) df
      = .ok ([], inspectorImage rm df) := by
    simp only [get_actions_and_docker_warnings_from_action_file]
    rw [inspectorDoc_map dm df rm hr, inspectorRuns_str rm df _ hu]
    unfold inspectorUsing
    rw [if_pos rfl]
  constructor
  · intro hns
    rw [hred, inspectorImage_not_str rm df
      (fun image hc => hns image (by rw [hi] at hc; cases hc; rfl))]
  · intro s hys hpre hdf
    subst hys
    rw [hred, inspectorImage_str rm df s hi]
    unfold imageWarn
    rw [if_neg (by simp [hpre]), if_neg hdf]

/-- Claim C10 witness: a relative path image `./Dockerfile` is ignored. -/
theorem claim_C10_witness :
    get_actions_and_docker_warnings_from_action_file actionYmlS
      (.ok (dockerDoc ("./Dockerfile"))) none = .ok ([], []) :=
  (claim_C10_image_ignored actionYmlS
    [(runsK, Yaml.map [(usingK, Yaml.str dockerS), (imageK, Yaml.str (strL ("./Dockerfile")))])]
    [(usingK, Yaml.str dockerS), (imageK, Yaml.str (strL ("./Dockerfile")))]
    (Yaml.str (strL ("./Dockerfile"))) none rfl rfl rfl).2
    (strL ("./Dockerfile")) rfl rfl (by decide)
